import Mathlib

/-!
Verification of the `sigma` package: an exact perturbative calculation and a
death-birth simulation of first-order selection effects for populations on
graphs.

The Python sources `sigma/exact.py` and `sigma/simulation.py` are shallowly
embedded below.  Numeric arrays use exact rational arithmetic (`ℚ`).  The
external sparse direct solver (`scipy.sparse.linalg.spsolve`) is modelled by
`linSolve`, the explicit adjugate-based solution of a square linear system
(which agrees with the unique solution whenever the system is nonsingular),
and the least-squares solver (`scipy.sparse.linalg.lsqr`) is modelled by the
solution of the normal equations.  Randomness in the simulation engine is
modelled by explicit uniform draws in `[0,1)` threaded through the update
loop, mirroring the inverse-transform sampling used by numpy.  Python
dynamic typing, where the code distinguishes `TypeError` from `ValueError`,
is modelled by the small value type `PyVal`.
-/

namespace SigmaSpec

/-! ## Linear-solver core -/

/-- Model of a direct sparse linear solve (`scipy.sparse.linalg.spsolve`):
the adjugate formula for the solution of `M x = b`.  For nonsingular `M`
this is the unique solution (`linSolve_spec`, `linSolve_unique`). -/
def linSolve {ι : Type*} [Fintype ι] [DecidableEq ι]
    (M : Matrix ι ι ℚ) (b : ι → ℚ) : ι → ℚ :=
  (M.det)⁻¹ • (M.adjugate.mulVec b)

theorem linSolve_spec {ι : Type*} [Fintype ι] [DecidableEq ι]
    (M : Matrix ι ι ℚ) (b : ι → ℚ) (h : M.det ≠ 0) :
    M.mulVec (linSolve M b) = b := by
  unfold linSolve
  rw [Matrix.mulVec_smul, Matrix.mulVec_mulVec, Matrix.mul_adjugate,
    Matrix.smul_mulVec_assoc, Matrix.one_mulVec, smul_smul,
    inv_mul_cancel₀ h, one_smul]

theorem linSolve_unique {ι : Type*} [Fintype ι] [DecidableEq ι]
    (M : Matrix ι ι ℚ) (b x : ι → ℚ) (h : M.det ≠ 0)
    (hx : M.mulVec x = b) : linSolve M b = x := by
  unfold linSolve
  rw [← hx, Matrix.mulVec_mulVec, Matrix.adjugate_mul,
    Matrix.smul_mulVec_assoc, Matrix.one_mulVec, smul_smul,
    inv_mul_cancel₀ h, one_smul]

/-- Model of `scipy.sparse.linalg.lsqr` (least squares): the least-squares
solution of `M x = b` solves the normal equations `Mᵀ M x = Mᵀ b`. -/
def lsqr {ι : Type*} [Fintype ι] [DecidableEq ι]
    (M : Matrix ι ι ℚ) (b : ι → ℚ) : ι → ℚ :=
  linSolve (M.transpose * M) (M.transpose.mulVec b)

theorem lsqr_eq_linSolve {ι : Type*} [Fintype ι] [DecidableEq ι]
    (M : Matrix ι ι ℚ) (b : ι → ℚ) (h : M.det ≠ 0) :
    lsqr M b = linSolve M b := by
  apply linSolve_unique
  · rw [Matrix.det_mul, Matrix.det_transpose]
    exact mul_ne_zero h h
  · rw [← Matrix.mulVec_mulVec, linSolve_spec M b h]

/-- A strictly row diagonally dominant rational matrix is nonsingular
(wrapper around Gershgorin with the hypothesis stated in `ℚ`). -/
theorem det_ne_zero_of_row_dominant {ι : Type*} [Fintype ι] [DecidableEq ι]
    (M : Matrix ι ι ℚ)
    (h : ∀ k, ∑ j ∈ Finset.univ.erase k, |M k j| < |M k k|) : M.det ≠ 0 := by
  apply det_ne_zero_of_sum_row_lt_diag
  intro k
  have hnorm : ∀ q : ℚ, ‖q‖ = ((|q| : ℚ) : ℝ) := by
    intro q
    rw [← Rat.norm_cast_real, Real.norm_eq_abs, Rat.cast_abs]
  simp only [hnorm]
  rw [← Rat.cast_sum]
  exact_mod_cast h k

/-! ## Embedding of `sigma/exact.py` -/

/-- Model of the Python `str.lower()` method: per-character lowercasing
(which on the ASCII labels involved here agrees with full lowercasing). -/
def pyLower (s : String) : String := ⟨s.data.map Char.toLower⟩

/-- Python error values: a `TypeError` or a `ValueError` carrying its
message (quote marks of the original messages are elided). -/
inductive PyErr where
  | typeError (msg : String)
  | valueError (msg : String)
  | indexError (msg : String)
deriving DecidableEq, Repr

deriving instance DecidableEq for Except

/-- Model of `nx.adjacency_matrix(structure)` for a simple graph on `Fin n`
given by its Boolean adjacency relation. -/
def adjacency_w {n : ℕ} (adj : Fin n → Fin n → Bool) : Matrix (Fin n) (Fin n) ℚ :=
  fun i j => if adj i j then 1 else 0

/-- Embeds `A = w.multiply(sp.csr_matrix(1/np.sum(w, axis=1)))`: the
ancestral random-walk transition matrix, each row of `w` divided by its sum
(the degree). -/
def transition_A {n : ℕ} (adj : Fin n → Fin n → Bool) : Matrix (Fin n) (Fin n) ℚ :=
  fun i j => adjacency_w adj i j / ∑ k, adjacency_w adj i k

/-- Embeds `e = A.transpose()/A.shape[0]`: marginal transmission
probabilities. -/
def marginal_e {n : ℕ} (adj : Fin n → Fin n → Bool) : Matrix (Fin n) (Fin n) ℚ :=
  fun i j => transition_A adj j i / n

/-- Embeds `d = np.asarray(np.sum(e, axis=0)).ravel()`: death probabilities
(column sums of `e`). -/
def death_d {n : ℕ} (adj : Fin n → Fin n → Bool) : Fin n → ℚ :=
  fun k => ∑ i, marginal_e adj i k

/-- Embeds `random_walk_probabilities(structure)`, returning `(w, A, e, d)`. -/
def random_walk_probabilities {n : ℕ} (adj : Fin n → Fin n → Bool) :
    Matrix (Fin n) (Fin n) ℚ × Matrix (Fin n) (Fin n) ℚ ×
      Matrix (Fin n) (Fin n) ℚ × (Fin n → ℚ) :=
  (adjacency_w adj, transition_A adj, marginal_e adj, death_d adj)

/-- Embeds `tilde_A = sp.eye(N) - (1-mutation_rate)*(e.transpose().multiply(
sp.csr_matrix(1/np.transpose(d))))` from `location_weights`: entrywise,
`tilde_A i j = (if i = j then 1 else 0) - (1-μ) * e j i * (1 / d j)`
(the elementwise product broadcasts the row vector `1/d` over the rows of
`e.transpose()`, scaling column `j` by `1 / d j`). -/
def tildeA {n : ℕ} (e : Matrix (Fin n) (Fin n) ℚ) (d : Fin n → ℚ) (μ : ℚ) :
    Matrix (Fin n) (Fin n) ℚ :=
  fun i j => (if i = j then 1 else 0) - (1 - μ) * (e j i * (1 / d j))

/-- Embeds `location_weights(e, d, mutation_rate)`: solves
`sp.linalg.spsolve(tilde_A.transpose(), mutation_rate*np.ones((N,1))/N)`
and returns the elementwise quotient of the solution by `d`. -/
def location_weights {n : ℕ} (e : Matrix (Fin n) (Fin n) ℚ) (d : Fin n → ℚ)
    (μ : ℚ) : Fin n → ℚ :=
  fun k => linSolve (tildeA e d μ).transpose (fun _ => μ / n) k / d k

/-- The (N²)×(N²) identity-by-state system matrix over ordered pairs; the
flat index `i*N + j` of the Python code corresponds to the pair `(i, j)`.
Embeds `M = sp.eye(N²) - (1-mutation_rate)*(1/2)*(sp.kron(sp.eye N, A) +
sp.kron(A, sp.eye N))` together with the loop that overwrites every row
`i*N + i` with the unit boundary-condition row. -/
def ibsM {n : ℕ} (A : Matrix (Fin n) (Fin n) ℚ) (μ : ℚ) :
    Matrix (Fin n × Fin n) (Fin n × Fin n) ℚ :=
  fun p q =>
    if p.1 = p.2 then (if q = p then 1 else 0)
    else (if q = p then 1 else 0) -
      (1 - μ) * (1 / 2) *
        ((if p.1 = q.1 then A p.2 q.2 else 0) + (if p.2 = q.2 then A p.1 q.1 else 0))

/-- The identity-by-state right-hand side `b = mutation_rate*(1/2)*ones`,
with the rows `i*N + i` overwritten to `1`. -/
def ibsB {n : ℕ} (μ : ℚ) : Fin n × Fin n → ℚ :=
  fun p => if p.1 = p.2 then 1 else μ * (1 / 2)

/-- Embeds `identity_by_state_probabilities(A, mutation_rate, solver)`.
The solver label is validated (the `TypeError` branch of the source guards
against non-string arguments, which the typed embedding excludes), the
system is solved by the selected solver, and the flat solution is reshaped
with `order='F'`, so that entry `(i, j)` of the result is the flat
component `i + j*N`, i.e. the pair component `(j, i)`. -/
def identity_by_state_probabilities {n : ℕ} (A : Matrix (Fin n) (Fin n) ℚ)
    (μ : ℚ) (solver : String) : Except PyErr (Matrix (Fin n) (Fin n) ℚ) :=
  if pyLower solver = "spsolve" ∨ pyLower solver = "lsqr" then
    let x : Fin n × Fin n → ℚ :=
      if pyLower solver = "spsolve" then linSolve (ibsM A μ) (ibsB μ)
      else lsqr (ibsM A μ) (ibsB μ)
    .ok (fun i j => x (j, i))
  else .error (.valueError "Solver must be spsolve or lsqr.")

/-- Embeds `marginal_fecundity_effects(A)`:
`m[i] = -A.multiply(A[:,i])/N` followed by `m[i][:,i] += A[:,i]/N`. -/
def marginal_fecundity_effects {n : ℕ} (A : Matrix (Fin n) (Fin n) ℚ) :
    Fin n → Matrix (Fin n) (Fin n) ℚ :=
  fun i => fun r s => -(A r s * A r i) / n + (if s = i then A r i / n else 0)

/-- Embeds `structure_coefficients(structure, mutation_rate, solver)`: the
five per-node terms (with numpy broadcasting of the column-shaped `term1`,
`term3` and the scalar `term5` over an N×N matrix made explicit), summed
over all nodes `j` and scaled by `1/(2*mutation_rate)`. -/
def structure_coefficients {n : ℕ} (adj : Fin n → Fin n → Bool) (μ : ℚ)
    (solver : String) :
    Except PyErr (Matrix (Fin n) (Fin n) ℚ × Matrix (Fin n) (Fin n) ℚ ×
      Matrix (Fin n) (Fin n) ℚ × Matrix (Fin n) (Fin n) ℚ) := do
  let w := adjacency_w adj
  let A := transition_A adj
  let e := marginal_e adj
  let d := death_d adj
  let m := marginal_fecundity_effects A
  let v := location_weights e d μ
  let phi ← identity_by_state_probabilities A μ solver
  let term1 := fun (j r : Fin n) => ∑ k, v k * (m j k r * phi k r)
  let term2 := fun (j r s : Fin n) => ∑ k, v k * m j k r * phi k s
  let term3 := fun (j r : Fin n) => (∑ k, v k * m j k r) * phi j r
  let term4 := fun (j r s : Fin n) => (∑ k, v k * m j k r) * phi j s
  let term5 := fun (j : Fin n) => (∑ r, ∑ k, v k * m j k r) / n
  let K1 : Matrix (Fin n) (Fin n) ℚ := fun r s => ∑ j, (1 / (2 * μ)) *
    (-(term1 j r + term2 j r s) + (1 - μ) * (term3 j r + term4 j r s) + term5 j)
  let K2 : Matrix (Fin n) (Fin n) ℚ := fun r s => ∑ j, (1 / (2 * μ)) *
    (-(term1 j r - term2 j r s) + (1 - μ) * (term3 j r - term4 j r s))
  return (K1, K2, w, A)

/-- Embeds `frequency_derivative(K1, K2, w, A, b, c, social_good)` (the
`TypeError` branch of the source guards against non-string arguments, which
the typed embedding excludes). -/
def frequency_derivative {n : ℕ} (K1 K2 w A : Matrix (Fin n) (Fin n) ℚ)
    (b c : ℚ) (social_good : String) : Except PyErr ℚ :=
  if pyLower social_good = "ff" ∨ pyLower social_good = "pp" then
    if pyLower social_good = "ff" then
      .ok ((1 / 2) * ((A * (K1 - K2)).trace * b - (A.transpose * (K1 + K2)).trace * c))
    else
      let K1_pp := ∑ i, ∑ j, K1 i j * w i j
      let K2_pp := ∑ i, ∑ j, K2 i j * w i j
      .ok ((1 / 2) * ((K1_pp - K2_pp) * b - (K1_pp + K2_pp) * c))
  else .error (.valueError "Social good must be ff or pp.")

/-- Model of the joblib `Parallel` orchestration used by both runners: one
independent task per element, results collected in submission order, the
first task failure propagated.  The tasks of the source share no mutable
state, so this sequential model is faithful to the parallel map. -/
def mapExcept {α β : Type*} (f : α → Except PyErr β) : List α → Except PyErr (List β)
  | [] => .ok []
  | x :: xs => do
    let y ← f x
    let ys ← mapExcept f xs
    return y :: ys

/-- Embeds the inner `run_single_calculation(mutation_rate)` closure of
`run_calculations`. -/
def run_single_calculation {n : ℕ} (adj : Fin n → Fin n → Bool) (b c : ℚ)
    (solver : String) (mutation_rate : ℚ) : Except PyErr (ℚ × ℚ) := do
  let (K1, K2, w, A) ← structure_coefficients adj mutation_rate solver
  let ff ← frequency_derivative K1 K2 w A b c "ff"
  let pp ← frequency_derivative K1 K2 w A b c "pp"
  return (ff, pp)

/-- Embeds `run_calculations(structure, b, c, mutation_rates, solver)`:
parallel map of `run_single_calculation` over the mutation rates, then the
two result columns `selection_effects[:, 0]` and `selection_effects[:, 1]`.
When the task list is empty, `np.asarray([])` is a 1-dimensional array of
shape `(0,)`, so the column indexing `[:, 0]` raises an `IndexError`
(message abbreviated); on a nonempty task list the array has shape
`(m, 2)` and the two columns are the per-task first and second components. -/
def run_calculations {n : ℕ} (adj : Fin n → Fin n → Bool) (b c : ℚ)
    (mutation_rates : List ℚ) (solver : String) :
    Except PyErr (List ℚ × List ℚ) := do
  let selection_effects ← mapExcept (run_single_calculation adj b c solver) mutation_rates
  if selection_effects.isEmpty then
    .error (.indexError "too many indices for array")
  else
    return (selection_effects.map Prod.fst, selection_effects.map Prod.snd)

/-! ## Embedding of `sigma/simulation.py` -/

/-- Python values of the dynamically typed constructor arguments: strings,
integers and floats (floats are modelled by exact rationals). -/
inductive PyVal where
  | str (s : String)
  | int (z : ℤ)
  | float (q : ℚ)
deriving DecidableEq, Repr

/-- Test `isinstance(v, str)`. -/
def PyVal.isStr : PyVal → Bool
  | .str _ => true
  | _ => false

/-- Test `isinstance(v, float) or isinstance(v, int)`. -/
def PyVal.isReal : PyVal → Bool
  | .int _ => true
  | .float _ => true
  | _ => false

/-- The numeric value of an `int` or `float` (`0` on strings, unused). -/
def PyVal.toRat : PyVal → ℚ
  | .int z => z
  | .float q => q
  | .str _ => 0

/-- The string held by a `str` (`""` otherwise, unused). -/
def PyVal.toStr : PyVal → String
  | .str s => s
  | _ => ""

/-- The neighbor list `list(nx.neighbors(structure, i))`, in node order. -/
def nbrs {n : ℕ} (adj : Fin n → Fin n → Bool) (i : Fin n) : List (Fin n) :=
  (List.finRange n).filter (fun j => adj i j)

/-- Embeds `nx.degree(structure, i)`: the number of neighbors of `i`. -/
def degree {n : ℕ} (adj : Fin n → Fin n → Bool) (i : Fin n) : ℕ :=
  (nbrs adj i).length

/-- The `Population` object: the spatial structure, the mutable trait state
and the validated parameters (`social_good` is stored lowercased, as in the
source). -/
structure Population (n : ℕ) where
  adj : Fin n → Fin n → Bool
  state : Fin n → ℤ
  social_good : String
  b : ℚ
  c : ℚ
  mutation_rate : ℚ
  selection_intensity : ℚ

/-- Embeds `Population.__init__`: the validations, in source order, with
the Python dynamic-type checks carried by `PyVal`.  The state vector is
stored as a function once its length is checked. -/
def Population.make {n : ℕ} (adj : Fin n → Fin n → Bool) (state : List ℤ)
    (social_good : PyVal) (b c : ℚ) (mutation_rate selection_intensity : PyVal) :
    Except PyErr (Population n) :=
  if state.length ≠ n then
    .error (.valueError "Each individual must have a state.")
  else if ¬ social_good.isStr then
    .error (.typeError "Social good must be a string.")
  else if ¬ (pyLower social_good.toStr = "ff" ∨ pyLower social_good.toStr = "pp") then
    .error (.valueError "Social good must be ff or pp.")
  else if ¬ mutation_rate.isReal then
    .error (.typeError "Mutation rate must be a real number.")
  else if mutation_rate.toRat < 0 ∨ mutation_rate.toRat > 1 then
    .error (.valueError "Mutation rate must be in [0, 1].")
  else if ¬ selection_intensity.isReal then
    .error (.typeError "Selection intensity must be a real number.")
  else if selection_intensity.toRat < 0 then
    .error (.valueError "Selection intensity must be non-negative.")
  else
    .ok { adj := adj
          state := fun i => state.getD i 0
          social_good := pyLower social_good.toStr
          b := b, c := c
          mutation_rate := mutation_rate.toRat
          selection_intensity := selection_intensity.toRat }

/-- Embeds `Population.mean_frequency(trait)`: the number of enumerated
positions holding `trait`, divided by the population size. -/
def Population.mean_frequency {n : ℕ} (pop : Population n) (trait : ℤ) : ℚ :=
  ((List.finRange n).filter (fun key => pop.state key == trait)).length / n

/-- The per-individual payoff formula of `Population.payoff` (the body of
the loop over `subset`). -/
def Population.payoff_of {n : ℕ} (pop : Population n) (individual : Fin n) : ℚ :=
  if pop.social_good = "ff" then
    (pop.state individual : ℚ) * (-pop.c) +
      ((nbrs pop.adj individual).map (fun neighbor =>
        (pop.state neighbor : ℚ) * (pop.b / (degree pop.adj neighbor : ℚ)))).sum
  else
    (pop.state individual : ℚ) * (-pop.c * (degree pop.adj individual : ℚ)) +
      ((nbrs pop.adj individual).map (fun neighbor =>
        (pop.state neighbor : ℚ) * pop.b)).sum

/-- Embeds `Population.payoff(subset)`: starts from `np.zeros(len(subset))`
and, for each `individual` of `subset` in order, writes its payoff at
position `subset.index(individual)` (the index of the first occurrence). -/
def Population.payoff {n : ℕ} (pop : Population n) (subset : List (Fin n)) :
    List ℚ :=
  subset.foldl
    (fun payoffs individual =>
      payoffs.set (subset.indexOf individual) (pop.payoff_of individual))
    (List.replicate subset.length 0)

/-- Model of `np.random.randint(m)`: inverse-transform sampling of a
uniform integer in `{0, ..., m-1}` from a uniform draw `u ∈ [0,1)` (the
final `% m` only totalizes the definition outside that domain). -/
def randint (m : ℕ) [NeZero m] (u : ℚ) : Fin m :=
  ⟨(⌊u * m⌋).toNat % m, Nat.mod_lt _ (Nat.pos_of_ne_zero (NeZero.ne m))⟩

/-- Computes `np.max` of a nonempty list (`0` on the empty list, which the
source only reaches on a graph with an isolated node, excluded by the
precondition). -/
def listMax : List ℚ → ℚ
  | [] => 0
  | x :: xs => xs.foldl max x

/-- Model of `np.random.choice(..., p=probs)`: inverse-transform sampling
through the cumulative distribution (`searchsorted` with side `right` on
the cumulative sums): the first index whose cumulative probability exceeds
the uniform draw `u` (and the list length if `u` is at least the total
mass). -/
def selectIdx : List ℚ → ℚ → ℕ
  | [], _ => 0
  | p :: ps, u => if u < p then 0 else selectIdx ps (u - p) + 1

/-- One death-birth update of `Population.update_population`, as a function
of the three per-step uniform draws `u₀` (death), `u₁` (birth) and `u₂`
(mutation), with `expFn` modelling `np.exp` (the exponential takes
irrational values, so the embedding abstracts it as a function parameter;
the claims constrain it to be positive, which `np.exp` is). -/
def Population.update_step {n : ℕ} [NeZero n] (pop : Population n)
    (expFn : ℚ → ℚ) (u₀ u₁ u₂ : ℚ) : Population n :=
  let death := randint n u₀
  let neighbors := nbrs pop.adj death
  let neighbor_payoffs := pop.payoff neighbors
  let neighbor_fitness := neighbor_payoffs.map
    (fun p => expFn (pop.selection_intensity * (p - listMax neighbor_payoffs)))
  let probs := neighbor_fitness.map (fun f => f / neighbor_fitness.sum)
  let birth := neighbors.getD (selectIdx probs u₁) death
  let offspring :=
    if u₂ < pop.mutation_rate / 2 then 1 - pop.state birth else pop.state birth
  { pop with state := Function.update pop.state death offspring }

/-- Embeds `Population.update_population(trait, number_of_updates)` (with a
specified trait): performs the updates in order, feeding step `k` the
uniform draws `draws k`, and returns the final population together with the
array of mean frequencies observed after each step. -/
def Population.update_population {n : ℕ} [NeZero n] (pop : Population n)
    (expFn : ℚ → ℚ) (draws : ℕ → ℚ × ℚ × ℚ) (trait : ℤ) :
    (number_of_updates : ℕ) → Population n × List ℚ
  | 0 => (pop, [])
  | number_of_updates + 1 =>
    let next := pop.update_step expFn (draws 0).1 (draws 0).2.1 (draws 0).2.2
    let rest := next.update_population expFn (fun k => draws (k + 1)) trait number_of_updates
    (rest.1, next.mean_frequency trait :: rest.2)

/-- Embeds the inner `run_single_simulation(mutation_rate)` closure of
`run_simulations`: the initial state draw `np.random.randint(0, 2, N)` is
modelled by the supplied `init_state` list, and `np.mean` of the trajectory
is its sum divided by its length. -/
def run_single_simulation {n : ℕ} [NeZero n] (adj : Fin n → Fin n → Bool)
    (social_good : PyVal) (b c : ℚ) (selection_intensity : PyVal)
    (number_of_updates : ℕ) (trait : ℤ) (expFn : ℚ → ℚ)
    (init_state : List ℤ) (draws : ℕ → ℚ × ℚ × ℚ) (mutation_rate : ℚ) :
    Except PyErr ℚ := do
  let pop ← Population.make adj init_state social_good b c
    (.float mutation_rate) selection_intensity
  let traj := (pop.update_population expFn draws trait number_of_updates).2
  return traj.sum / number_of_updates

/-- Parallel map with the per-task index (for the per-task randomness);
same orchestration model as `mapExcept`. -/
def mapExceptIdx {α β : Type*} (f : ℕ → α → Except PyErr β) :
    ℕ → List α → Except PyErr (List β)
  | _, [] => .ok []
  | k, x :: xs => do
    let y ← f k x
    let ys ← mapExceptIdx f (k + 1) xs
    return y :: ys

/-- Embeds `run_simulations(...)`: one independent simulation per mutation
rate, task `k` drawing its fresh initial state `init_states k` and its
update draws `draws k`, results collected in input order. -/
def run_simulations {n : ℕ} [NeZero n] (adj : Fin n → Fin n → Bool)
    (social_good : PyVal) (b c : ℚ) (mutation_rates : List ℚ)
    (selection_intensity : PyVal) (number_of_updates : ℕ) (trait : ℤ)
    (expFn : ℚ → ℚ) (init_states : ℕ → List ℤ) (draws : ℕ → ℕ → ℚ × ℚ × ℚ) :
    Except PyErr (List ℚ) :=
  mapExceptIdx
    (fun k μ => run_single_simulation adj social_good b c selection_intensity
      number_of_updates trait expFn (init_states k) (draws k) μ) 0 mutation_rates

/-! ## Claim C1: the frequency-derivative evaluator -/

/-- C1, counterexample: `"FF"` is a good-type value other than `'ff'` and
`'pp'`, yet `frequency_derivative` succeeds on it (returning the additive
formula) instead of failing with an invalid-argument error: the source
lowercases the label before matching, so the match is case-insensitive. -/
theorem C1_counterexample :
    "FF" ≠ "ff" ∧ "FF" ≠ "pp" ∧
      ∃ q : ℚ, frequency_derivative (n := 1) 0 0 0 0 1 1 "FF" = .ok q := by
  refine ⟨by decide, by decide, ?_⟩
  have h : pyLower "FF" = "ff" := by decide
  refine ⟨(1 / 2) * ((((0 : Matrix (Fin 1) (Fin 1) ℚ)) * (0 - 0)).trace * 1 -
    ((0 : Matrix (Fin 1) (Fin 1) ℚ).transpose * (0 + 0)).trace * 1), ?_⟩
  unfold frequency_derivative
  rw [if_pos (Or.inl h), if_pos h]

/-- C1, amended: `frequency_derivative K1 K2 w A b c good` returns
`½·(trace(A·(K1−K2))·b − trace(Aᵗ·(K1+K2))·c)` when `good` lowercases to
the additive label `ff`, and `½·((K1p−K2p)·b − (K1p+K2p)·c)` with
`K1p = Σ(K1⊙w)`, `K2p = Σ(K2⊙w)` when `good` lowercases to the
proportional label `pp`; every other value fails with an invalid-argument
error. -/
theorem C1_frequency_derivative {n : ℕ} (K1 K2 w A : Matrix (Fin n) (Fin n) ℚ)
    (b c : ℚ) (social_good : String) :
    (pyLower social_good = "ff" →
      frequency_derivative K1 K2 w A b c social_good =
        .ok ((1 / 2) * ((A * (K1 - K2)).trace * b -
          (A.transpose * (K1 + K2)).trace * c))) ∧
    (pyLower social_good = "pp" →
      frequency_derivative K1 K2 w A b c social_good =
        .ok ((1 / 2) * (((∑ i, ∑ j, K1 i j * w i j) - ∑ i, ∑ j, K2 i j * w i j) * b -
          ((∑ i, ∑ j, K1 i j * w i j) + ∑ i, ∑ j, K2 i j * w i j) * c))) ∧
    (pyLower social_good ≠ "ff" → pyLower social_good ≠ "pp" →
      frequency_derivative K1 K2 w A b c social_good =
        .error (.valueError "Social good must be ff or pp.")) := by
  refine ⟨fun h => ?_, fun h => ?_, fun h1 h2 => ?_⟩
  · simp [frequency_derivative, h]
  · simp [frequency_derivative, h]
  · simp [frequency_derivative, h1, h2]

/-- C1, witness: the amended theorem applied to the additive label on
concrete one-node data. -/
theorem C1_witness :
    frequency_derivative (n := 1) 0 0 0 0 1 1 "ff" =
      .ok ((1 / 2) * ((((0 : Matrix (Fin 1) (Fin 1) ℚ) * ((0 : Matrix (Fin 1) (Fin 1) ℚ) -
        0)).trace * 1 - ((0 : Matrix (Fin 1) (Fin 1) ℚ).transpose *
        ((0 : Matrix (Fin 1) (Fin 1) ℚ) + 0)).trace * 1))) :=
  (C1_frequency_derivative 0 0 0 0 1 1 "ff").1 (by decide)

/-! ## Claim C6: the payoff operation -/

/-- Pulling a fixed head through a fold of list updates at successor
positions. -/
theorem foldl_set_cons {α : Type*} (g : α → ℕ) (f : α → ℚ) (a : ℚ)
    (acc : List ℚ) (l : List α) :
    l.foldl (fun payoffs y => payoffs.set (g y + 1) (f y)) (a :: acc) =
      a :: l.foldl (fun payoffs y => payoffs.set (g y) (f y)) acc := by
  induction l generalizing acc with
  | nil => rfl
  | cons x xs ih => simp only [List.foldl_cons, List.set_cons_succ, ih]

/-- On a duplicate-free subset, `Population.payoff` computes exactly the
per-individual payoffs, in subset order. -/
theorem payoff_map {n : ℕ} (pop : Population n) (subset : List (Fin n))
    (hnd : subset.Nodup) :
    pop.payoff subset = subset.map pop.payoff_of := by
  induction subset with
  | nil => rfl
  | cons x xs ih =>
    rw [List.nodup_cons] at hnd
    unfold Population.payoff at ih ⊢
    rw [List.length_cons, List.replicate_succ, List.foldl_cons,
      List.indexOf_cons_self, List.set_cons_zero]
    have hx : ∀ (acc : List ℚ), ∀ y ∈ xs,
        acc.set ((x :: xs).indexOf y) (pop.payoff_of y) =
          acc.set (xs.indexOf y + 1) (pop.payoff_of y) := by
      intro acc y hy
      have : y ≠ x := fun hxy => hnd.1 (hxy ▸ hy)
      rw [List.indexOf_cons_ne _ (Ne.symm this)]
    rw [List.foldl_ext _ _ _ hx, foldl_set_cons, List.map_cons, ih hnd.2]

/-- C6: for every population and duplicate-free subset of nodes, the entry
of `payoff(subset)` at position `k` is, for the node `i` at position `k`:
`−c·state[i] + Σ_{j∈N(i)} state[j]·b/degree(j)` when the good type is the
additive `ff`, and `−c·degree(i)·state[i] + Σ_{j∈N(i)} state[j]·b` when it
is the proportional `pp`. -/
theorem C6_payoff {n : ℕ} (pop : Population n) (subset : List (Fin n))
    (hnd : subset.Nodup) (k : ℕ) (hk : k < subset.length) :
    (pop.social_good = "ff" →
      (pop.payoff subset).getD k 0 =
        -pop.c * (pop.state (subset.get ⟨k, hk⟩) : ℚ) +
          ((nbrs pop.adj (subset.get ⟨k, hk⟩)).map (fun j =>
            (pop.state j : ℚ) * pop.b / (degree pop.adj j : ℚ))).sum) ∧
    (pop.social_good = "pp" →
      (pop.payoff subset).getD k 0 =
        -pop.c * (degree pop.adj (subset.get ⟨k, hk⟩) : ℚ) *
            (pop.state (subset.get ⟨k, hk⟩) : ℚ) +
          ((nbrs pop.adj (subset.get ⟨k, hk⟩)).map (fun j =>
            (pop.state j : ℚ) * pop.b)).sum) := by
  have hmap := payoff_map pop subset hnd
  have hget : (pop.payoff subset).getD k 0 = pop.payoff_of (subset.get ⟨k, hk⟩) := by
    rw [hmap, List.getD_eq_getElem?_getD, List.getElem?_map]
    simp [List.getElem?_eq_getElem hk, List.get_eq_getElem]
  constructor
  · intro hff
    rw [hget]
    unfold Population.payoff_of
    rw [if_pos hff]
    congr 1
    · ring
    · exact congrArg List.sum (List.map_congr_left fun j _ => by ring)
  · intro hpp
    rw [hget]
    unfold Population.payoff_of
    rw [if_neg (by rw [hpp]; decide)]
    ring_nf

/-- C6, witness: a two-node population with an edge, additive good. -/
theorem C6_witness :
    (Population.payoff (n := 2)
        { adj := fun i j => decide (i ≠ j), state := fun _ => 1,
          social_good := "ff", b := 2, c := 1,
          mutation_rate := 0, selection_intensity := 0 }
        [0, 1]).getD 0 0 =
      -(1 : ℚ) * ((1 : ℤ) : ℚ) +
        ((nbrs (fun i j : Fin 2 => decide (i ≠ j)) 0).map (fun j =>
          (((1 : ℤ) : ℚ)) * (2 : ℚ) / (degree (fun i j : Fin 2 => decide (i ≠ j)) j : ℚ))).sum := by
  have h := (C6_payoff (n := 2)
      { adj := fun i j => decide (i ≠ j), state := fun _ => 1,
        social_good := "ff", b := 2, c := 1,
        mutation_rate := 0, selection_intensity := 0 }
      [0, 1] (by decide) 0 (by decide)).1 rfl
  exact h

/-! ## Claim C7: eager validation in the Population constructor -/

/-- C7: with an otherwise-valid argument list, `Population.__init__`
rejects each invalid input eagerly with the stated error kind — a state
vector of the wrong length (length-mismatch `ValueError`), a good-type
label that is not a string (`TypeError`) or not a recognized label
(`ValueError`), a mutation rate that is not a real number (`TypeError`) or
outside `[0,1]` (`ValueError`), a selection intensity that is not a real
number (`TypeError`) or negative (`ValueError`) — and succeeds when all
inputs are valid. -/
theorem C7_population_validation {n : ℕ} (adj : Fin n → Fin n → Bool)
    (state : List ℤ) (hstate : state.length = n)
    (sg : String) (hsg : pyLower sg = "ff" ∨ pyLower sg = "pp")
    (mr : PyVal) (hmr : mr.isReal = true) (hmr0 : 0 ≤ mr.toRat) (hmr1 : mr.toRat ≤ 1)
    (si : PyVal) (hsi : si.isReal = true) (hsi0 : 0 ≤ si.toRat) (b c : ℚ) :
    (∀ bad_state : List ℤ, bad_state.length ≠ n →
      Population.make adj bad_state (.str sg) b c mr si =
        .error (.valueError "Each individual must have a state.")) ∧
    (∀ bad : PyVal, bad.isStr = false →
      Population.make adj state bad b c mr si =
        .error (.typeError "Social good must be a string.")) ∧
    (∀ bad : String, pyLower bad ≠ "ff" → pyLower bad ≠ "pp" →
      Population.make adj state (.str bad) b c mr si =
        .error (.valueError "Social good must be ff or pp.")) ∧
    (∀ bad : PyVal, bad.isReal = false →
      Population.make adj state (.str sg) b c bad si =
        .error (.typeError "Mutation rate must be a real number.")) ∧
    (∀ bad : PyVal, bad.isReal = true → bad.toRat < 0 ∨ 1 < bad.toRat →
      Population.make adj state (.str sg) b c bad si =
        .error (.valueError "Mutation rate must be in [0, 1].")) ∧
    (∀ bad : PyVal, bad.isReal = false →
      Population.make adj state (.str sg) b c mr bad =
        .error (.typeError "Selection intensity must be a real number.")) ∧
    (∀ bad : PyVal, bad.isReal = true → bad.toRat < 0 →
      Population.make adj state (.str sg) b c mr bad =
        .error (.valueError "Selection intensity must be non-negative.")) ∧
    (∃ pop : Population n, Population.make adj state (.str sg) b c mr si = .ok pop) := by
  have hsg2 : pyLower (PyVal.str sg).toStr = "ff" ∨ pyLower (PyVal.str sg).toStr = "pp" := hsg
  refine ⟨?_, ?_, ?_, ?_, ?_, ?_, ?_, ?_⟩
  · intro bad_state hbad
    rw [Population.make, if_pos hbad]
  · intro bad hbad
    rw [Population.make, if_neg (by simp [hstate]),
      if_pos (by simp [PyVal.isStr] at hbad ⊢; cases bad <;> simp_all)]
  · intro bad h1 h2
    rw [Population.make, if_neg (by simp [hstate]), if_neg (by simp [PyVal.isStr]),
      if_pos (by simp [PyVal.toStr, h1, h2])]
  · intro bad hbad
    rw [Population.make, if_neg (by simp [hstate]), if_neg (by simp [PyVal.isStr]),
      if_neg (not_not_intro hsg2), if_pos (by simp [hbad])]
  · intro bad hb hout
    rw [Population.make, if_neg (by simp [hstate]), if_neg (by simp [PyVal.isStr]),
      if_neg (not_not_intro hsg2), if_neg (by simp [hb]),
      if_pos (by rcases hout with h | h
                 · exact Or.inl h
                 · exact Or.inr h)]
  · intro bad hbad
    rw [Population.make, if_neg (by simp [hstate]), if_neg (by simp [PyVal.isStr]),
      if_neg (not_not_intro hsg2), if_neg (by simp [hmr]),
      if_neg (by push_neg; exact ⟨hmr0, hmr1⟩), if_pos (by simp [hbad])]
  · intro bad hb hneg
    rw [Population.make, if_neg (by simp [hstate]), if_neg (by simp [PyVal.isStr]),
      if_neg (not_not_intro hsg2), if_neg (by simp [hmr]),
      if_neg (by push_neg; exact ⟨hmr0, hmr1⟩), if_neg (by simp [hb]),
      if_pos hneg]
  · refine ⟨Population.mk adj (fun i => state.getD i 0)
      (pyLower (PyVal.str sg).toStr) b c (PyVal.toRat mr) (PyVal.toRat si), ?_⟩
    rw [Population.make, if_neg (by simp [hstate]), if_neg (by simp [PyVal.isStr]),
      if_neg (not_not_intro hsg2), if_neg (by simp [hmr]),
      if_neg (by push_neg; exact ⟨hmr0, hmr1⟩), if_neg (by simp [hsi]),
      if_neg (by push_neg; exact hsi0)]

/-- C7, witness: the validation theorem applied to a concrete one-node
population with valid parameters. -/
theorem C7_witness :
    ∃ pop : Population 1,
      Population.make (fun _ _ => false) [0] (.str "ff") 2 1 (.float (1/10))
        (.int 0) = .ok pop :=
  (C7_population_validation (fun _ _ => false) [0] (by decide) "ff"
    (Or.inl (by decide)) (.float (1/10)) (by decide) (by norm_num [PyVal.toRat])
    (by norm_num [PyVal.toRat]) (.int 0) (by decide) (by norm_num [PyVal.toRat])
    2 1).2.2.2.2.2.2.2

/-! ## Random-walk facts for degree-positive graphs -/

theorem adjacency_w_nonneg {n : ℕ} (adj : Fin n → Fin n → Bool) (i j : Fin n) :
    0 ≤ adjacency_w adj i j := by
  unfold adjacency_w
  split <;> norm_num

theorem wsum_pos {n : ℕ} (adj : Fin n → Fin n → Bool) (i : Fin n)
    (hdeg : ∃ j, adj i j = true) : 0 < ∑ k, adjacency_w adj i k := by
  obtain ⟨j, hj⟩ := hdeg
  refine Finset.sum_pos' (fun k _ => adjacency_w_nonneg adj i k)
    ⟨j, Finset.mem_univ j, ?_⟩
  unfold adjacency_w
  rw [hj]
  norm_num

theorem transition_A_nonneg {n : ℕ} (adj : Fin n → Fin n → Bool) (i j : Fin n) :
    0 ≤ transition_A adj i j :=
  div_nonneg (adjacency_w_nonneg adj i j)
    (Finset.sum_nonneg fun k _ => adjacency_w_nonneg adj i k)

theorem transition_A_rowsum {n : ℕ} (adj : Fin n → Fin n → Bool) (i : Fin n)
    (hdeg : ∃ j, adj i j = true) : ∑ j, transition_A adj i j = 1 := by
  unfold transition_A
  rw [← Finset.sum_div]
  exact div_self (ne_of_gt (wsum_pos adj i hdeg))

theorem death_d_graph {n : ℕ} (adj : Fin n → Fin n → Bool)
    (hdeg : ∀ i, ∃ j, adj i j = true) (k : Fin n) : death_d adj k = 1 / n := by
  unfold death_d marginal_e
  rw [← Finset.sum_div, transition_A_rowsum adj k (hdeg k)]

theorem tildeA_graph {n : ℕ} (adj : Fin n → Fin n → Bool)
    (hdeg : ∀ i, ∃ j, adj i j = true) (μ : ℚ) :
    tildeA (marginal_e adj) (death_d adj) μ =
      Matrix.of fun i j => (if i = j then (1 : ℚ) else 0) - (1 - μ) * transition_A adj i j := by
  funext i j
  have hn : (n : ℚ) ≠ 0 := Nat.cast_ne_zero.mpr (Nat.not_eq_zero_of_lt i.pos)
  unfold tildeA marginal_e
  rw [death_d_graph adj hdeg j]
  rw [Matrix.of_apply, one_div_one_div]
  field_simp

/-- A matrix `I − c·A` with `0 ≤ c < 1` and `A` row-stochastic is strictly
row diagonally dominant, hence nonsingular. -/
theorem det_one_sub_mul_ne_zero {n : ℕ} (A : Matrix (Fin n) (Fin n) ℚ) (c : ℚ)
    (hc0 : 0 ≤ c) (hc1 : c < 1) (hA0 : ∀ i j, 0 ≤ A i j)
    (hA1 : ∀ i, ∑ j, A i j = 1) :
    (Matrix.of fun i j => (if i = j then (1 : ℚ) else 0) - c * A i j).det ≠ 0 := by
  apply det_ne_zero_of_row_dominant
  intro k
  have hAkk : A k k ≤ 1 := by
    rw [← hA1 k]
    exact Finset.single_le_sum (fun j _ => hA0 k j) (Finset.mem_univ k)
  have hckk : c * A k k ≤ 1 :=
    mul_le_one₀ (le_of_lt hc1) (hA0 k k) hAkk
  have herase : ∑ j ∈ Finset.univ.erase k,
      |(Matrix.of fun i j => (if i = j then (1 : ℚ) else 0) - c * A i j) k j| =
        c * (1 - A k k) := by
    have hcong : ∀ j ∈ Finset.univ.erase k,
        |(Matrix.of fun i j => (if i = j then (1 : ℚ) else 0) - c * A i j) k j| =
          c * A k j := by
      intro j hj
      have hne : k ≠ j := fun h => (Finset.mem_erase.mp hj).1 h.symm
      rw [Matrix.of_apply, if_neg hne, zero_sub, abs_neg,
        abs_of_nonneg (mul_nonneg hc0 (hA0 k j))]
    rw [Finset.sum_congr rfl hcong, ← Finset.mul_sum,
      Finset.sum_erase_eq_sub (Finset.mem_univ k), hA1 k]
  rw [herase, Matrix.of_apply, if_pos rfl,
    abs_of_nonneg (by linarith : (0 : ℚ) ≤ 1 - c * A k k)]
  nlinarith

/-- The reproductive-value system matrix built from graph-derived inputs is
nonsingular for every mutation rate in `(0, 1]`. -/
theorem tildeA_det_ne_zero {n : ℕ} (adj : Fin n → Fin n → Bool)
    (hdeg : ∀ i, ∃ j, adj i j = true) (μ : ℚ) (hμ0 : 0 < μ) (hμ1 : μ ≤ 1) :
    (tildeA (marginal_e adj) (death_d adj) μ).det ≠ 0 := by
  rw [tildeA_graph adj hdeg μ]
  exact det_one_sub_mul_ne_zero (transition_A adj) (1 - μ) (by linarith)
    (by linarith) (transition_A_nonneg adj) (fun i => transition_A_rowsum adj i (hdeg i))

/-! ## Claim C2: the reproductive-value invariant -/

/-- C2: for every mutation rate `μ ∈ (0,1]` and `(e, d)` derived from a
degree-positive graph, the vector `v` returned by `location_weights`
satisfies `N·(v⊙d)·(I−(1−μ)A) = μ·𝟙` elementwise — exactly, over `ℚ`, so
in particular within every numerical tolerance — where `A` is the
ancestral random-walk transition matrix and `N` the population size. -/
theorem C2_location_weights {n : ℕ} (adj : Fin n → Fin n → Bool)
    (hdeg : ∀ i, ∃ j, adj i j = true) (μ : ℚ) (hμ0 : 0 < μ) (hμ1 : μ ≤ 1)
    (j : Fin n) :
    (n : ℚ) * (∑ i, (location_weights (marginal_e adj) (death_d adj) μ i *
        death_d adj i) *
      ((if i = j then 1 else 0) - (1 - μ) * transition_A adj i j)) = μ := by
  have hn : (n : ℚ) ≠ 0 := Nat.cast_ne_zero.mpr (Nat.not_eq_zero_of_lt j.pos)
  have hdet : (tildeA (marginal_e adj) (death_d adj) μ).transpose.det ≠ 0 := by
    rw [Matrix.det_transpose]
    exact tildeA_det_ne_zero adj hdeg μ hμ0 hμ1
  have hx := linSolve_spec (tildeA (marginal_e adj) (death_d adj) μ).transpose
    (fun _ => μ / n) hdet
  have hxj := congrFun hx j
  have hvd : ∀ i, location_weights (marginal_e adj) (death_d adj) μ i *
      death_d adj i =
        linSolve (tildeA (marginal_e adj) (death_d adj) μ).transpose
          (fun _ => μ / n) i := by
    intro i
    unfold location_weights
    rw [div_mul_cancel₀]
    rw [death_d_graph adj hdeg i]
    exact one_div_ne_zero hn
  have hsum : ∑ i, (location_weights (marginal_e adj) (death_d adj) μ i *
      death_d adj i) *
        ((if i = j then 1 else 0) - (1 - μ) * transition_A adj i j) = μ / n := by
    rw [← hxj]
    unfold Matrix.mulVec Matrix.dotProduct
    apply Finset.sum_congr rfl
    intro i _
    rw [hvd i]
    simp only [Matrix.transpose_apply, tildeA_graph adj hdeg μ, Matrix.of_apply]
    ring
  rw [hsum, mul_div_cancel₀ μ hn]

/-- C2, witness: the invariant instantiated on the two-node complete graph
with `μ = 1/2`, at coordinate `0`. -/
theorem C2_witness :
    (2 : ℚ) * (∑ i, (location_weights (marginal_e (fun i j : Fin 2 => decide (i ≠ j)))
        (death_d (fun i j : Fin 2 => decide (i ≠ j))) (1/2) i *
          death_d (fun i j : Fin 2 => decide (i ≠ j)) i) *
      ((if i = (0 : Fin 2) then 1 else 0) -
        (1 - 1/2) * transition_A (fun i j : Fin 2 => decide (i ≠ j)) i 0)) = 1/2 := by
  have h := C2_location_weights (fun i j : Fin 2 => decide (i ≠ j))
    (by decide) (1/2) (by norm_num) (by norm_num) 0
  exact_mod_cast h

/-! ## Claim C4: what system the reproductive-value solver solves -/

/-- The reproductive-value solver as the specification words it, kept for
the refinement comparison with `location_weights`: solve the system
`(I − (1−μ)·eᵗ·diag(1/d)) · x = (μ/N)·𝟙` itself — that is, `tilde_A x = rhs`
with no transpose — and return `x/d`. -/
def location_weights_spec {n : ℕ} (e : Matrix (Fin n) (Fin n) ℚ)
    (d : Fin n → ℚ) (μ : ℚ) : Fin n → ℚ :=
  fun k => linSolve (tildeA e d μ) (fun _ => μ / n) k / d k

/-- The path graph on three nodes `0 - 1 - 2` (a degree-positive,
non-regular graph). -/
def adjP3 : Fin 3 → Fin 3 → Bool :=
  fun i j => decide (i.val + 1 = j.val ∨ j.val + 1 = i.val)

theorem adjP3_deg : ∀ i, ∃ j, adjP3 i j = true := by decide

/-- C4, counterexample: on the three-node path with `μ = 1/2`, the system
the claim names, `(I − (1−μ)·eᵗ·diag(1/d))·x = (μ/N)·𝟙`, is nonsingular
and its unique solution is the constant vector `1/3`; yet `location_weights`
does not return `x/d` for that solution (the source solves the transposed
system `tilde_Aᵀ x = (μ/N)·𝟙` instead). -/
theorem C4_counterexample :
    (tildeA (marginal_e adjP3) (death_d adjP3) (1/2)).det ≠ 0 ∧
    (tildeA (marginal_e adjP3) (death_d adjP3) (1/2)).mulVec
      (fun _ => 1/3) = (fun _ => (1/2) / 3) ∧
    location_weights (marginal_e adjP3) (death_d adjP3) (1/2) ≠
      fun k => (1/3) / death_d adjP3 k := by
  have hdeg := adjP3_deg
  have hrow : ∀ i, ∑ j, transition_A adjP3 i j = 1 :=
    fun i => transition_A_rowsum adjP3 i (hdeg i)
  refine ⟨tildeA_det_ne_zero adjP3 hdeg (1/2) (by norm_num) (by norm_num), ?_, ?_⟩
  · funext k
    unfold Matrix.mulVec Matrix.dotProduct
    rw [tildeA_graph adjP3 hdeg]
    simp only [Matrix.of_apply]
    fin_cases k <;>
      · simp only [transition_A, adjacency_w, adjP3, Fin.sum_univ_three]
        norm_num [Fin.ext_iff]
  · have hxcode : (tildeA (marginal_e adjP3) (death_d adjP3) (1/2)).transpose.mulVec
        (fun k => if k = 1 then 4/9 else 5/18) =
          fun _ : Fin 3 => (1/2 : ℚ) / ((3 : ℕ) : ℚ) := by
      funext k
      unfold Matrix.mulVec Matrix.dotProduct
      simp only [Matrix.transpose_apply, tildeA_graph adjP3 hdeg, Matrix.of_apply]
      fin_cases k <;>
        · simp only [transition_A, adjacency_w, adjP3, Fin.sum_univ_three]
          norm_num [Fin.ext_iff]
    have hdetT : (tildeA (marginal_e adjP3) (death_d adjP3) (1/2)).transpose.det ≠ 0 := by
      rw [Matrix.det_transpose]
      exact tildeA_det_ne_zero adjP3 hdeg (1/2) (by norm_num) (by norm_num)
    have hlw : location_weights (marginal_e adjP3) (death_d adjP3) (1/2) =
        fun k => (if k = 1 then (4:ℚ)/9 else 5/18) / death_d adjP3 k := by
      funext k
      unfold location_weights
      rw [linSolve_unique _ _ _ hdetT hxcode]
    intro h
    have h1 := congrFun (hlw.symm.trans h) 1
    rw [death_d_graph adjP3 hdeg 1] at h1
    norm_num at h1

/-- C4 (amended): `location_weights` builds
`tilde_A = I − (1−μ)·eᵗ·diag(1/d)` but solves the transposed system
`tilde_Aᵀ·x = (μ/N)·𝟙` (equivalently, the row-vector system
`xᵗ·tilde_A = (μ/N)·𝟙ᵗ`) and returns `v[k] = x[k]/d[k]`: whenever the
system is nonsingular and `d` has no zero entry, the vector returned by
`location_weights`, multiplied back by `d` elementwise, satisfies the
transposed system. -/
theorem C4_location_weights {n : ℕ} (e : Matrix (Fin n) (Fin n) ℚ)
    (d : Fin n → ℚ) (μ : ℚ) (hdet : (tildeA e d μ).det ≠ 0)
    (hd : ∀ k, d k ≠ 0) :
    (tildeA e d μ).transpose.mulVec
      (fun k => location_weights e d μ k * d k) = fun _ => μ / n := by
  have hdetT : (tildeA e d μ).transpose.det ≠ 0 := by
    rw [Matrix.det_transpose]
    exact hdet
  have hvd : (fun k => location_weights e d μ k * d k) =
      linSolve (tildeA e d μ).transpose (fun _ => μ / n) := by
    funext k
    unfold location_weights
    rw [div_mul_cancel₀ _ (hd k)]
  rw [hvd, linSolve_spec _ _ hdetT]

/-- C4, witness: the amended statement instantiated on the three-node path
with `μ = 1/2`. -/
theorem C4_witness :
    (tildeA (marginal_e adjP3) (death_d adjP3) (1/2)).transpose.mulVec
      (fun k => location_weights (marginal_e adjP3) (death_d adjP3) (1/2) k *
        death_d adjP3 k) = fun _ => (1/2 : ℚ) / ((3 : ℕ) : ℚ) :=
  C4_location_weights (marginal_e adjP3) (death_d adjP3) (1/2)
    (tildeA_det_ne_zero adjP3 adjP3_deg (1/2) (by norm_num) (by norm_num))
    (fun k => by rw [death_d_graph adjP3 adjP3_deg k]; norm_num)

/-! ## Identity-by-state system: structural lemmas -/

theorem sum_unit_row {ι : Type*} [Fintype ι] [DecidableEq ι] (p : ι) (x : ι → ℚ) :
    ∑ q, (if q = p then (1 : ℚ) else 0) * x q = x p := by
  simp [ite_mul]

theorem sum_prod_fst {n : ℕ} (a b : Fin n) (A : Matrix (Fin n) (Fin n) ℚ)
    (x : Fin n × Fin n → ℚ) :
    ∑ q : Fin n × Fin n, (if a = q.1 then A b q.2 else 0) * x q =
      ∑ k, A b k * x (a, k) := by
  rw [Fintype.sum_prod_type]
  have hinner : ∀ q1 : Fin n,
      ∑ q2, (if a = q1 then A b q2 else 0) * x (q1, q2) =
        if a = q1 then ∑ q2, A b q2 * x (q1, q2) else 0 := by
    intro q1
    split <;> simp
  rw [Finset.sum_congr rfl fun q1 _ => hinner q1, Finset.sum_ite_eq]
  simp

theorem sum_prod_snd {n : ℕ} (a b : Fin n) (A : Matrix (Fin n) (Fin n) ℚ)
    (x : Fin n × Fin n → ℚ) :
    ∑ q : Fin n × Fin n, (if b = q.2 then A a q.1 else 0) * x q =
      ∑ k, A a k * x (k, b) := by
  rw [Fintype.sum_prod_type]
  have hinner : ∀ q1 : Fin n,
      ∑ q2, (if b = q2 then A a q1 else 0) * x (q1, q2) = A a q1 * x (q1, b) := by
    intro q1
    rw [Finset.sum_congr rfl fun q2 _ => by rw [ite_mul, zero_mul],
      Finset.sum_ite_eq]
    simp
  rw [Finset.sum_congr rfl fun q1 _ => hinner q1]

/-- The identity-by-state system is invariant under swapping the two walker
coordinates. -/
theorem ibsM_swap {n : ℕ} (A : Matrix (Fin n) (Fin n) ℚ) (μ : ℚ)
    (p q : Fin n × Fin n) : ibsM A μ p.swap q.swap = ibsM A μ p q := by
  obtain ⟨a, b⟩ := p
  obtain ⟨c, d⟩ := q
  unfold ibsM
  simp only [Prod.swap_prod_mk]
  by_cases hab : a = b
  · subst hab
    simp [Prod.ext_iff, and_comm]
  · rw [if_neg hab, if_neg (fun h => hab h.symm)]
    by_cases hq : (c, d) = (a, b)
    · have hq2 : (d, c) = (b, a) := by
        rw [Prod.ext_iff] at hq ⊢
        exact ⟨hq.2, hq.1⟩
      rw [if_pos hq, if_pos hq2]
      ring
    · have hq2 : ¬(d, c) = (b, a) := fun h => hq (by
        rw [Prod.ext_iff] at h ⊢
        exact ⟨h.2, h.1⟩)
      rw [if_neg hq, if_neg hq2]
      ring

theorem ibsB_swap {n : ℕ} (μ : ℚ) (p : Fin n × Fin n) :
    ibsB μ p.swap = ibsB (n := n) μ p := by
  obtain ⟨a, b⟩ := p
  unfold ibsB
  simp only [Prod.swap_prod_mk]
  by_cases hab : a = b
  · subst hab
    simp
  · rw [if_neg hab, if_neg (fun h => hab h.symm)]

/-- The identity-by-state system matrix is strictly row diagonally dominant
for every row-stochastic `A` and `μ ∈ (0, 1]`, hence nonsingular. -/
theorem ibsM_det_ne_zero {n : ℕ} (A : Matrix (Fin n) (Fin n) ℚ) (μ : ℚ)
    (hμ0 : 0 < μ) (hμ1 : μ ≤ 1) (hA0 : ∀ i j, 0 ≤ A i j)
    (hA1 : ∀ i, ∑ j, A i j = 1) : (ibsM A μ).det ≠ 0 := by
  have hAle : ∀ i j, A i j ≤ 1 := by
    intro i j
    rw [← hA1 i]
    exact Finset.single_le_sum (fun k _ => hA0 i k) (Finset.mem_univ j)
  apply det_ne_zero_of_row_dominant
  rintro ⟨a, b⟩
  by_cases hab : a = b
  · subst hab
    have hdiag : ibsM A μ (a, a) (a, a) = 1 := by
      unfold ibsM
      simp
    have hzero : ∀ q ∈ Finset.univ.erase (a, a), |ibsM A μ (a, a) q| = 0 := by
      intro q hq
      have hne : q ≠ (a, a) := (Finset.mem_erase.mp hq).1
      unfold ibsM
      simp [if_neg hne]
    rw [Finset.sum_congr rfl hzero, hdiag]
    norm_num
  · have hfact : ∀ q : Fin n × Fin n, q ≠ (a, b) →
        |ibsM A μ (a, b) q| = (1 - μ) * (1 / 2) *
          ((if a = q.1 then A b q.2 else 0) + (if b = q.2 then A a q.1 else 0)) := by
      intro q hq
      unfold ibsM
      rw [if_neg hab, if_neg hq, zero_sub, abs_neg]
      have h1 : 0 ≤ (if a = q.1 then A b q.2 else 0) := by split <;> simp [hA0]
      have h2 : 0 ≤ (if b = q.2 then A a q.1 else 0) := by split <;> simp [hA0]
      exact abs_of_nonneg (mul_nonneg (mul_nonneg (by linarith) (by norm_num))
        (add_nonneg h1 h2))
    have hsum1 : ∑ q : Fin n × Fin n, (if a = q.1 then A b q.2 else 0) = 1 := by
      have := sum_prod_fst a b A (fun _ => 1)
      simpa [hA1 b] using this
    have hsum2 : ∑ q : Fin n × Fin n, (if b = q.2 then A a q.1 else 0) = 1 := by
      have := sum_prod_snd a b A (fun _ => 1)
      simpa [hA1 a] using this
    have herase : ∑ q ∈ Finset.univ.erase (a, b), |ibsM A μ (a, b) q| =
        (1 - μ) * (1 / 2) * (2 - (A b b + A a a)) := by
      rw [Finset.sum_congr rfl fun q hq => hfact q (Finset.mem_erase.mp hq).1,
        ← Finset.mul_sum, Finset.sum_erase_eq_sub (Finset.mem_univ (a, b)),
        Finset.sum_add_distrib, hsum1, hsum2]
      norm_num
    have hdiag : ibsM A μ (a, b) (a, b) = 1 - (1 - μ) * (1 / 2) * (A b b + A a a) := by
      unfold ibsM
      simp [hab]
    rw [herase, hdiag]
    have hAbb := hA0 b b
    have hAaa := hA0 a a
    have hb1 := hAle b b
    have ha1 := hAle a a
    rw [abs_of_nonneg (by nlinarith)]
    nlinarith

/-- On a valid solver label and a nonsingular system, both solver branches
of `identity_by_state_probabilities` return the reshaped exact solution. -/
theorem ibs_valid_eval {n : ℕ} (A : Matrix (Fin n) (Fin n) ℚ) (μ : ℚ)
    (hdet : (ibsM A μ).det ≠ 0) (solver : String)
    (hsolver : pyLower solver = "spsolve" ∨ pyLower solver = "lsqr") :
    identity_by_state_probabilities A μ solver =
      .ok (fun i j => linSolve (ibsM A μ) (ibsB μ) (j, i)) := by
  by_cases h : pyLower solver = "spsolve"
  · simp only [identity_by_state_probabilities, if_pos hsolver, if_pos h]
  · simp only [identity_by_state_probabilities, if_pos hsolver, if_neg h,
      lsqr_eq_linSolve _ _ hdet]

/-- The exact identity-by-state solution is invariant under swapping the
two walker coordinates: the system is swap-symmetric and nonsingular. -/
theorem ibs_sol_symm {n : ℕ} (A : Matrix (Fin n) (Fin n) ℚ) (μ : ℚ)
    (hdet : (ibsM A μ).det ≠ 0) (p : Fin n × Fin n) :
    linSolve (ibsM A μ) (ibsB μ) p.swap = linSolve (ibsM A μ) (ibsB μ) p := by
  have hx := linSolve_spec (ibsM A μ) (ibsB μ) hdet
  have hy : (ibsM A μ).mulVec
      (fun q => linSolve (ibsM A μ) (ibsB μ) q.swap) = ibsB μ := by
    funext r
    simp only [Matrix.mulVec, Matrix.dotProduct]
    have hstep : ∑ q, ibsM A μ r q * linSolve (ibsM A μ) (ibsB μ) q.swap =
        ∑ q, ibsM A μ r.swap q * linSolve (ibsM A μ) (ibsB μ) q := by
      apply Fintype.sum_equiv (Equiv.prodComm (Fin n) (Fin n))
      intro q
      simp only [Equiv.prodComm_apply]
      rw [← ibsM_swap A μ r q]
    rw [hstep]
    have hxr := congrFun hx r.swap
    simp only [Matrix.mulVec, Matrix.dotProduct] at hxr
    rw [hxr, ibsB_swap]
  have := linSolve_unique (ibsM A μ) (ibsB μ)
    (fun q => linSolve (ibsM A μ) (ibsB μ) q.swap) hdet hy
  exact (congrFun this p).symm

/-- The exact identity-by-state solution has unit diagonal and satisfies
the off-diagonal recursion of the system. -/
theorem ibs_sol_props {n : ℕ} (A : Matrix (Fin n) (Fin n) ℚ) (μ : ℚ)
    (hμ0 : 0 < μ) (hμ1 : μ ≤ 1) (hA0 : ∀ i j, 0 ≤ A i j)
    (hA1 : ∀ i, ∑ j, A i j = 1) :
    (∀ i : Fin n, linSolve (ibsM A μ) (ibsB μ) (i, i) = 1) ∧
    (∀ i j : Fin n, i ≠ j →
      linSolve (ibsM A μ) (ibsB μ) (j, i) =
        μ / 2 + (1 - μ) / 2 *
          ((∑ k, A i k * linSolve (ibsM A μ) (ibsB μ) (j, k)) +
            ∑ k, A j k * linSolve (ibsM A μ) (ibsB μ) (i, k))) := by
  have hdet := ibsM_det_ne_zero A μ hμ0 hμ1 hA0 hA1
  have hMx := linSolve_spec (ibsM A μ) (ibsB μ) hdet
  constructor
  · intro i
    have hrow := congrFun hMx (i, i)
    simp only [Matrix.mulVec, Matrix.dotProduct] at hrow
    have hentry : ∀ q : Fin n × Fin n,
        ibsM A μ (i, i) q * linSolve (ibsM A μ) (ibsB μ) q =
          (if q = (i, i) then 1 else 0) * linSolve (ibsM A μ) (ibsB μ) q := by
      intro q
      unfold ibsM
      rw [if_pos rfl]
    rw [Finset.sum_congr rfl fun q _ => hentry q, sum_unit_row] at hrow
    have hb : ibsB (n := n) μ (i, i) = 1 := by
      unfold ibsB
      rw [if_pos rfl]
    rw [hb] at hrow
    exact hrow
  · intro i j hij
    have hji : ¬((j, i).1 = (j, i).2) := fun h => hij (h.symm)
    have hrow := congrFun hMx (j, i)
    simp only [Matrix.mulVec, Matrix.dotProduct] at hrow
    have hexp : ∀ q : Fin n × Fin n,
        ibsM A μ (j, i) q * linSolve (ibsM A μ) (ibsB μ) q =
          (if q = (j, i) then 1 else 0) * linSolve (ibsM A μ) (ibsB μ) q -
            (1 - μ) * (1 / 2) *
              ((if j = q.1 then A i q.2 else 0) * linSolve (ibsM A μ) (ibsB μ) q) -
            (1 - μ) * (1 / 2) *
              ((if i = q.2 then A j q.1 else 0) * linSolve (ibsM A μ) (ibsB μ) q) := by
      intro q
      unfold ibsM
      rw [if_neg hji]
      ring
    rw [Finset.sum_congr rfl fun q _ => hexp q, Finset.sum_sub_distrib,
      Finset.sum_sub_distrib, sum_unit_row, ← Finset.mul_sum, ← Finset.mul_sum,
      sum_prod_fst, sum_prod_snd] at hrow
    have hswap : ∑ k, A j k * linSolve (ibsM A μ) (ibsB μ) (k, i) =
        ∑ k, A j k * linSolve (ibsM A μ) (ibsB μ) (i, k) := by
      apply Finset.sum_congr rfl
      intro k _
      rw [show ((k : Fin n), i) = ((i, k) : Fin n × Fin n).swap from rfl,
        ibs_sol_symm A μ hdet (i, k)]
    rw [hswap] at hrow
    have hb : ibsB (n := n) μ (j, i) = μ * (1 / 2) := by
      unfold ibsB
      rw [if_neg hji]
    rw [hb] at hrow
    linarith

/-! ## Claim C3: identity-by-state probabilities -/

/-- C3: for every `μ ∈ (0,1]`, row-stochastic `A` and valid solver
selector, `identity_by_state_probabilities` returns a matrix `φ` with unit
diagonal that satisfies `φ = μ/2·𝟙𝟙ᵗ + (1−μ)/2·(Aφ+(Aφ)ᵗ)` at every
off-diagonal entry — exactly, over `ℚ` — and the two solver modes agree. -/
theorem C3_identity_by_state {n : ℕ} (A : Matrix (Fin n) (Fin n) ℚ) (μ : ℚ)
    (hμ0 : 0 < μ) (hμ1 : μ ≤ 1) (hA0 : ∀ i j, 0 ≤ A i j)
    (hA1 : ∀ i, ∑ j, A i j = 1) (solver : String)
    (hsolver : pyLower solver = "spsolve" ∨ pyLower solver = "lsqr") :
    ∃ φ : Matrix (Fin n) (Fin n) ℚ,
      identity_by_state_probabilities A μ solver = .ok φ ∧
      (∀ i, φ i i = 1) ∧
      (∀ i j, i ≠ j → φ i j = μ / 2 + (1 - μ) / 2 * ((A * φ) i j + (A * φ) j i)) ∧
      identity_by_state_probabilities A μ "spsolve" =
        identity_by_state_probabilities A μ "lsqr" := by
  have hdet := ibsM_det_ne_zero A μ hμ0 hμ1 hA0 hA1
  have hprops := ibs_sol_props A μ hμ0 hμ1 hA0 hA1
  refine ⟨fun i j => linSolve (ibsM A μ) (ibsB μ) (j, i),
    ibs_valid_eval A μ hdet solver hsolver, hprops.1, ?_, ?_⟩
  · intro i j hij
    have hrec := hprops.2 i j hij
    simp only [Matrix.mul_apply]
    exact hrec
  · rw [ibs_valid_eval A μ hdet "spsolve" (Or.inl (by decide)),
      ibs_valid_eval A μ hdet "lsqr" (Or.inr (by decide))]

/-- A concrete row-stochastic matrix: the transition matrix of the
two-node complete graph. -/
def A2 : Matrix (Fin 2) (Fin 2) ℚ := fun i j => if i = j then 0 else 1

theorem A2_nonneg : ∀ i j, 0 ≤ A2 i j := by
  intro i j
  unfold A2
  split <;> norm_num

theorem A2_rowsum : ∀ i, ∑ j, A2 i j = 1 := by
  intro i
  fin_cases i <;> norm_num [A2, Fin.sum_univ_two]

/-- C3, witness: the identity-by-state properties on the two-node complete
graph with `μ = 1/2` and the direct solver. -/
theorem C3_witness :
    ∃ φ : Matrix (Fin 2) (Fin 2) ℚ,
      identity_by_state_probabilities A2 (1/2) "spsolve" = .ok φ ∧
      (∀ i, φ i i = 1) ∧
      (∀ i j, i ≠ j →
        φ i j = (1/2) / 2 + (1 - 1/2) / 2 * ((A2 * φ) i j + (A2 * φ) j i)) ∧
      identity_by_state_probabilities A2 (1/2) "spsolve" =
        identity_by_state_probabilities A2 (1/2) "lsqr" :=
  C3_identity_by_state A2 (1/2) (by norm_num) (by norm_num) A2_nonneg A2_rowsum
    "spsolve" (Or.inl (by decide))

/-! ## Claim C10: symmetry of the identity-by-state matrix -/

/-- C10: for every `μ ∈ (0,1]`, row-stochastic `A` and valid solver
selector, the returned identity-by-state matrix is symmetric: the pair
system is invariant under swapping the pair coordinates and nonsingular,
so the reshaped solution equals its transpose. -/
theorem C10_ibs_symmetric {n : ℕ} (A : Matrix (Fin n) (Fin n) ℚ) (μ : ℚ)
    (hμ0 : 0 < μ) (hμ1 : μ ≤ 1) (hA0 : ∀ i j, 0 ≤ A i j)
    (hA1 : ∀ i, ∑ j, A i j = 1) (solver : String)
    (hsolver : pyLower solver = "spsolve" ∨ pyLower solver = "lsqr") :
    ∃ φ : Matrix (Fin n) (Fin n) ℚ,
      identity_by_state_probabilities A μ solver = .ok φ ∧
      ∀ i j, φ i j = φ j i := by
  have hdet := ibsM_det_ne_zero A μ hμ0 hμ1 hA0 hA1
  refine ⟨fun i j => linSolve (ibsM A μ) (ibsB μ) (j, i),
    ibs_valid_eval A μ hdet solver hsolver, ?_⟩
  intro i j
  exact ibs_sol_symm A μ hdet (i, j)

/-- C10, witness: symmetry on the two-node complete graph with `μ = 1/2`
and the least-squares solver. -/
theorem C10_witness :
    ∃ φ : Matrix (Fin 2) (Fin 2) ℚ,
      identity_by_state_probabilities A2 (1/2) "lsqr" = .ok φ ∧
      ∀ i j, φ i j = φ j i :=
  C10_ibs_symmetric A2 (1/2) (by norm_num) (by norm_num) A2_nonneg A2_rowsum
    "lsqr" (Or.inr (by decide))

/-! ## Claim C8: where validation errors are raised -/

/-- C8, counterexample: with an empty mutation-rate list, no
invalid-argument error is raised at all, even though the solver selector
and good-type label are invalid — `run_simulations` succeeds with an empty
result, and `run_calculations` fails only later, with the `IndexError`
raised by the column indexing of the empty result array — so neither
validation happens synchronously at entry; each happens inside the
per-mutation-rate tasks (the solver check in
`identity_by_state_probabilities`, the good-type check in the `Population`
constructor), and with no task it never runs. -/
theorem C8_counterexample :
    ¬(pyLower "bogus" = "spsolve" ∨ pyLower "bogus" = "lsqr") ∧
    ¬(pyLower "bogus" = "ff" ∨ pyLower "bogus" = "pp") ∧
    run_calculations (fun i j : Fin 2 => decide (i ≠ j)) 2 1 [] "bogus" =
      .error (.indexError "too many indices for array") ∧
    run_simulations (fun i j : Fin 2 => decide (i ≠ j)) (.str "bogus") 2 1 []
      (.float 0) 5 1 (fun _ => 1) (fun _ => [0, 0]) (fun _ _ => (0, 0, 0)) =
      .ok [] := by
  refine ⟨by decide, by decide, rfl, rfl⟩

/-- C8 (amended): an invalid solver selector or good-type label is
validated inside each per-mutation-rate task rather than at entry: the
orchestrators fail with the corresponding invalid-argument error exactly
when the mutation-rate sequence is nonempty (the first task fails), while
with an empty sequence no validation ever runs — `run_simulations`
succeeds with an empty result and `run_calculations` fails with the
`IndexError` from indexing the columns of the empty result array. -/
theorem C8_validation_in_tasks {n : ℕ} [NeZero n] (adj : Fin n → Fin n → Bool)
    (b c : ℚ) (solver : String)
    (hbad : ¬(pyLower solver = "spsolve" ∨ pyLower solver = "lsqr"))
    (sg : String) (hsg : ¬(pyLower sg = "ff" ∨ pyLower sg = "pp"))
    (si : PyVal) (number_of_updates : ℕ) (trait : ℤ) (expFn : ℚ → ℚ)
    (init_states : ℕ → List ℤ) (hlen : ∀ k, (init_states k).length = n)
    (draws : ℕ → ℕ → ℚ × ℚ × ℚ) (rates : List ℚ) :
    (run_calculations adj b c rates solver =
      .error (.valueError "Solver must be spsolve or lsqr.") ↔ rates ≠ []) ∧
    (run_simulations adj (.str sg) b c rates si number_of_updates trait expFn
        init_states draws =
      .error (.valueError "Social good must be ff or pp.") ↔ rates ≠ []) ∧
    run_calculations adj b c [] solver =
      .error (.indexError "too many indices for array") := by
  refine ⟨?_, ?_, rfl⟩
  · cases rates with
    | nil =>
      have hnil : run_calculations adj b c ([] : List ℚ) solver =
          .error (.indexError "too many indices for array") := rfl
      rw [hnil]
      simp
    | cons μ rest =>
      have htask : run_single_calculation adj b c solver μ =
          .error (.valueError "Solver must be spsolve or lsqr.") := by
        unfold run_single_calculation structure_coefficients
          identity_by_state_probabilities
        simp only [if_neg hbad]
        rfl
      have hrun : run_calculations adj b c (μ :: rest) solver =
          .error (.valueError "Solver must be spsolve or lsqr.") := by
        unfold run_calculations mapExcept
        rw [htask]
        rfl
      rw [hrun]
      simp
  · cases rates with
    | nil => simp [run_simulations, mapExceptIdx]
    | cons μ rest =>
      have htask : run_single_simulation adj (.str sg) b c si number_of_updates
          trait expFn (init_states 0) (draws 0) μ =
            .error (.valueError "Social good must be ff or pp.") := by
        unfold run_single_simulation Population.make
        rw [if_neg (by simp [hlen 0]), if_neg (by simp [PyVal.isStr]),
          if_pos (by simpa [PyVal.toStr] using hsg)]
        rfl
      have hrun : run_simulations adj (.str sg) b c (μ :: rest) si
          number_of_updates trait expFn init_states draws =
            .error (.valueError "Social good must be ff or pp.") := by
        unfold run_simulations mapExceptIdx
        rw [htask]
        rfl
      rw [hrun]
      simp

/-- C8, witness: the amended statement on a concrete two-node graph with a
bogus solver and good-type label and a singleton rate list. -/
theorem C8_witness :
    (run_calculations (fun i j : Fin 2 => decide (i ≠ j)) 2 1 [1/10] "bogus" =
      .error (.valueError "Solver must be spsolve or lsqr.") ↔
        ([1/10] : List ℚ) ≠ []) ∧
    (run_simulations (fun i j : Fin 2 => decide (i ≠ j)) (.str "bogus") 2 1
        [1/10] (.float 0) 5 1 (fun _ => 1) (fun _ => [0, 0]) (fun _ _ => (0, 0, 0)) =
      .error (.valueError "Social good must be ff or pp.") ↔
        ([1/10] : List ℚ) ≠ []) ∧
    run_calculations (fun i j : Fin 2 => decide (i ≠ j)) 2 1 [] "bogus" =
      .error (.indexError "too many indices for array") :=
  C8_validation_in_tasks (fun i j : Fin 2 => decide (i ≠ j)) 2 1 "bogus"
    (by decide) "bogus" (by decide) (.float 0) 5 1 (fun _ => 1)
    (fun _ => [0, 0]) (fun _ => rfl) (fun _ _ => (0, 0, 0)) [1/10]

/-! ## Claim C9: index alignment of the orchestrators -/

theorem identity_by_state_ok {n : ℕ} (A : Matrix (Fin n) (Fin n) ℚ) (μ : ℚ)
    (solver : String)
    (hsolver : pyLower solver = "spsolve" ∨ pyLower solver = "lsqr") :
    ∃ φ, identity_by_state_probabilities A μ solver = .ok φ := by
  by_cases h : pyLower solver = "spsolve"
  · refine ⟨fun i j => linSolve (ibsM A μ) (ibsB μ) (j, i), ?_⟩
    simp only [identity_by_state_probabilities, if_pos hsolver, if_pos h]
  · refine ⟨fun i j => lsqr (ibsM A μ) (ibsB μ) (j, i), ?_⟩
    simp only [identity_by_state_probabilities, if_pos hsolver, if_neg h]

theorem run_single_calculation_ok {n : ℕ} (adj : Fin n → Fin n → Bool)
    (b c : ℚ) (solver : String)
    (hsolver : pyLower solver = "spsolve" ∨ pyLower solver = "lsqr") (μ : ℚ) :
    ∃ v, run_single_calculation adj b c solver μ = .ok v := by
  obtain ⟨φ, hφ⟩ := identity_by_state_ok (transition_A adj) μ solver hsolver
  simp only [run_single_calculation, structure_coefficients, hφ]
  exact ⟨_, rfl⟩

theorem population_make_ok {n : ℕ} (adj : Fin n → Fin n → Bool)
    (state : List ℤ) (hstate : state.length = n) (sg : String)
    (hsg : pyLower sg = "ff" ∨ pyLower sg = "pp") (b c : ℚ) (mr : PyVal)
    (hmr : mr.isReal = true) (hmr0 : 0 ≤ mr.toRat) (hmr1 : mr.toRat ≤ 1)
    (si : PyVal) (hsi : si.isReal = true) (hsi0 : 0 ≤ si.toRat) :
    Population.make adj state (.str sg) b c mr si =
      .ok (Population.mk adj (fun i => state.getD i 0) (pyLower sg) b c
        mr.toRat si.toRat) := by
  have hsg2 : pyLower (PyVal.str sg).toStr = "ff" ∨
      pyLower (PyVal.str sg).toStr = "pp" := hsg
  unfold Population.make
  rw [if_neg (by simp [hstate]), if_neg (by simp [PyVal.isStr]),
    if_neg (not_not_intro hsg2), if_neg (by simp [hmr]),
    if_neg (by push_neg; exact ⟨hmr0, hmr1⟩), if_neg (by simp [hsi]),
    if_neg (by push_neg; exact hsi0)]
  rfl

theorem run_single_simulation_ok {n : ℕ} [NeZero n] (adj : Fin n → Fin n → Bool)
    (sg : String) (hsg : pyLower sg = "ff" ∨ pyLower sg = "pp") (b c : ℚ)
    (si : PyVal) (hsi : si.isReal = true) (hsi0 : 0 ≤ si.toRat)
    (number_of_updates : ℕ) (trait : ℤ) (expFn : ℚ → ℚ)
    (init_state : List ℤ) (hlen : init_state.length = n)
    (draws : ℕ → ℚ × ℚ × ℚ) (μ : ℚ) (hμ0 : 0 ≤ μ) (hμ1 : μ ≤ 1) :
    ∃ v, run_single_simulation adj (.str sg) b c si number_of_updates trait
      expFn init_state draws μ = .ok v := by
  unfold run_single_simulation
  rw [population_make_ok adj init_state hlen sg hsg b c (.float μ) rfl hμ0 hμ1
    si hsi hsi0]
  exact ⟨_, rfl⟩

theorem mapExcept_ok {α β : Type*} (d : β) (f : α → Except PyErr β) :
    ∀ l : List α, (∀ a ∈ l, ∃ b, f a = .ok b) →
      ∃ outs : List β, mapExcept f l = .ok outs ∧ outs.length = l.length ∧
        ∀ k (hk : k < l.length), f (l.get ⟨k, hk⟩) = .ok (outs.getD k d) := by
  intro l
  induction l with
  | nil => exact fun _ => ⟨[], rfl, rfl, fun k hk => absurd hk (by simp)⟩
  | cons x xs ih =>
    intro h
    obtain ⟨b, hb⟩ := h x (by simp)
    obtain ⟨outs, houts, hlen, hget⟩ := ih (fun a ha => h a (by simp [ha]))
    refine ⟨b :: outs, ?_, by simp [hlen], ?_⟩
    · unfold mapExcept
      rw [hb, houts]
      rfl
    · intro k hk
      cases k with
      | zero => simpa using hb
      | succ k =>
        have hk2 : k < xs.length := by simpa using hk
        simpa using hget k hk2

theorem mapExceptIdx_ok {α β : Type*} (d : β) (f : ℕ → α → Except PyErr β) :
    ∀ (l : List α), (∀ (k : ℕ), ∀ a ∈ l, ∃ b, f k a = .ok b) → ∀ start : ℕ,
      ∃ outs : List β, mapExceptIdx f start l = .ok outs ∧
        outs.length = l.length ∧
        ∀ k (hk : k < l.length), f (start + k) (l.get ⟨k, hk⟩) =
          .ok (outs.getD k d) := by
  intro l
  induction l with
  | nil => exact fun _ _ => ⟨[], rfl, rfl, fun k hk => absurd hk (by simp)⟩
  | cons x xs ih =>
    intro h start
    obtain ⟨b, hb⟩ := h start x (by simp)
    obtain ⟨outs, houts, hlen, hget⟩ :=
      ih (fun k a ha => h k a (by simp [ha])) (start + 1)
    refine ⟨b :: outs, ?_, by simp [hlen], ?_⟩
    · unfold mapExceptIdx
      rw [hb, houts]
      rfl
    · intro k hk
      cases k with
      | zero => simpa using hb
      | succ k =>
        have hk2 : k < xs.length := by simpa using hk
        have := hget k hk2
        rw [show start + 1 + k = start + (k + 1) from by omega] at this
        simpa using this

/-- C9, counterexample: the claim quantifies over every input
mutation-rate sequence, but on the empty sequence `run_calculations` does
not return two (empty) sequences even with a valid solver: the source
builds `np.asarray([])`, a 1-dimensional array, and the column indexing
`selection_effects[:, 0]` raises an `IndexError`. -/
theorem C9_counterexample :
    (pyLower "spsolve" = "spsolve" ∨ pyLower "spsolve" = "lsqr") ∧
    run_calculations (fun i j : Fin 2 => decide (i ≠ j)) 2 1 [] "spsolve" =
      .error (.indexError "too many indices for array") :=
  ⟨Or.inl (by decide), rfl⟩

/-- C9 (amended): on valid inputs and a nonempty mutation-rate sequence,
`run_calculations` returns two sequences, and on valid inputs and any
mutation-rate sequence `run_simulations` returns one sequence, each
exactly as long as the mutation-rate sequence and index-aligned with it:
the k-th output entry is the per-rate result for the k-th input rate (the
orchestration model collects results by task index, as joblib does,
independent of completion order).  On the empty sequence
`run_calculations` instead raises an `IndexError` while indexing the
columns of the empty result array (see `C9_counterexample`). -/
theorem C9_index_alignment {n : ℕ} [NeZero n] (adj : Fin n → Fin n → Bool)
    (b c : ℚ) (solver : String)
    (hsolver : pyLower solver = "spsolve" ∨ pyLower solver = "lsqr")
    (sg : String) (hsg : pyLower sg = "ff" ∨ pyLower sg = "pp")
    (si : PyVal) (hsi : si.isReal = true) (hsi0 : 0 ≤ si.toRat)
    (number_of_updates : ℕ) (trait : ℤ) (expFn : ℚ → ℚ)
    (init_states : ℕ → List ℤ) (hlen : ∀ k, (init_states k).length = n)
    (draws : ℕ → ℕ → ℚ × ℚ × ℚ) (rates : List ℚ)
    (hrates : ∀ μ ∈ rates, 0 ≤ μ ∧ μ ≤ 1) :
    (rates ≠ [] → ∃ ffs pps : List ℚ,
      run_calculations adj b c rates solver = .ok (ffs, pps) ∧
      ffs.length = rates.length ∧ pps.length = rates.length ∧
      ∀ k (hk : k < rates.length),
        run_single_calculation adj b c solver (rates.get ⟨k, hk⟩) =
          .ok (ffs.getD k 0, pps.getD k 0)) ∧
    (∃ outs : List ℚ,
      run_simulations adj (.str sg) b c rates si number_of_updates trait expFn
          init_states draws = .ok outs ∧
      outs.length = rates.length ∧
      ∀ k (hk : k < rates.length),
        run_single_simulation adj (.str sg) b c si number_of_updates trait
          expFn (init_states k) (draws k) (rates.get ⟨k, hk⟩) =
            .ok (outs.getD k 0)) := by
  constructor
  · intro hne
    obtain ⟨outs, houts, hl, hget⟩ := mapExcept_ok (0, 0)
      (run_single_calculation adj b c solver) rates
      (fun μ _ => run_single_calculation_ok adj b c solver hsolver μ)
    refine ⟨outs.map Prod.fst, outs.map Prod.snd, ?_, by simp [hl], by simp [hl], ?_⟩
    · unfold run_calculations
      rw [houts]
      cases outs with
      | nil =>
        rw [List.length_nil] at hl
        exact absurd (List.length_eq_zero.mp hl.symm) hne
      | cons x xs => rfl
    · intro k hk
      have h := hget k hk
      rw [h]
      have hk2 : k < outs.length := by rw [hl]; exact hk
      congr 1
      simp [List.getD_eq_getElem?_getD, List.getElem?_map,
        List.getElem?_eq_getElem hk2]
  · obtain ⟨outs, houts, hl, hget⟩ := mapExceptIdx_ok 0
      (fun k μ => run_single_simulation adj (.str sg) b c si number_of_updates
        trait expFn (init_states k) (draws k) μ) rates
      (fun k μ hμ => run_single_simulation_ok adj sg hsg b c si hsi hsi0
        number_of_updates trait expFn (init_states k) (hlen k) (draws k) μ
        (hrates μ hμ).1 (hrates μ hμ).2) 0
    refine ⟨outs, ?_, hl, ?_⟩
    · unfold run_simulations
      rw [houts]
    · intro k hk
      have h := hget k hk
      rw [Nat.zero_add] at h
      exact h

/-- C9, witness: the alignment statement on the two-node complete graph,
one mutation rate, the direct solver and the additive good. -/
theorem C9_witness :
    (∃ ffs pps : List ℚ,
      run_calculations (fun i j : Fin 2 => decide (i ≠ j)) 2 1 [1/10] "spsolve" =
        .ok (ffs, pps) ∧
      ffs.length = ([1/10] : List ℚ).length ∧
      pps.length = ([1/10] : List ℚ).length ∧
      ∀ k (hk : k < ([1/10] : List ℚ).length),
        run_single_calculation (fun i j : Fin 2 => decide (i ≠ j)) 2 1 "spsolve"
            (([1/10] : List ℚ).get ⟨k, hk⟩) =
          .ok (ffs.getD k 0, pps.getD k 0)) ∧
    (∃ outs : List ℚ,
      run_simulations (fun i j : Fin 2 => decide (i ≠ j)) (.str "ff") 2 1
          [1/10] (.int 0) 3 1 (fun _ => 1) (fun _ => [0, 1]) (fun _ _ => (0, 0, 0)) =
        .ok outs ∧
      outs.length = ([1/10] : List ℚ).length ∧
      ∀ k (hk : k < ([1/10] : List ℚ).length),
        run_single_simulation (fun i j : Fin 2 => decide (i ≠ j)) (.str "ff") 2 1
            (.int 0) 3 1 (fun _ => 1) ((fun _ : ℕ => [(0 : ℤ), 1]) k)
            ((fun _ _ => (0, 0, 0)) k) (([1/10] : List ℚ).get ⟨k, hk⟩) =
          .ok (outs.getD k 0)) :=
  have h := C9_index_alignment (fun i j : Fin 2 => decide (i ≠ j)) 2 1 "spsolve"
    (Or.inl (by decide)) "ff" (Or.inl (by decide)) (.int 0) (by decide)
    (by norm_num [PyVal.toRat]) 3 1 (fun _ => 1) (fun _ => [0, 1]) (fun _ => rfl)
    (fun _ _ => (0, 0, 0)) [1/10]
    (fun μ hμ => by
      rw [List.mem_singleton] at hμ
      subst hμ
      norm_num)
  ⟨h.1 (by decide), h.2⟩

/-! ## Claim C5: support lemmas for the death-birth update -/

/-- Inverse-transform characterization of the uniform integer draw: node
`i` is selected exactly when the uniform draw lies in `[i/m, (i+1)/m)`. -/
theorem randint_eq_iff {m : ℕ} [NeZero m] (u : ℚ) (hu0 : 0 ≤ u) (hu1 : u < 1)
    (i : Fin m) :
    randint m u = i ↔ (i.val : ℚ) / m ≤ u ∧ u < ((i.val : ℚ) + 1) / m := by
  have hm : 0 < (m : ℚ) := by
    exact_mod_cast Nat.pos_of_ne_zero (NeZero.ne m)
  have hum0 : 0 ≤ u * m := mul_nonneg hu0 (le_of_lt hm)
  have hfl0 : 0 ≤ ⌊u * (m : ℚ)⌋ := Int.floor_nonneg.mpr hum0
  have hum1 : u * m < m := by nlinarith
  have hfl1 : ⌊u * (m : ℚ)⌋ < (m : ℤ) := by
    rw [Int.floor_lt]
    exact_mod_cast hum1
  have htn : (⌊u * (m : ℚ)⌋).toNat < m := by omega
  have hmk : randint m u = ⟨(⌊u * (m : ℚ)⌋).toNat, htn⟩ := by
    unfold randint
    congr 1
    exact Nat.mod_eq_of_lt htn
  have h1 : (⌊u * (m : ℚ)⌋).toNat = i.val ↔ ⌊u * (m : ℚ)⌋ = (i.val : ℤ) := by
    omega
  rw [hmk, Fin.ext_iff,
    show ((⟨(⌊u * (m : ℚ)⌋).toNat, htn⟩ : Fin m) : ℕ) =
      (⌊u * (m : ℚ)⌋).toNat from rfl, h1, Int.floor_eq_iff]
  push_cast
  constructor
  · rintro ⟨h2, h3⟩
    exact ⟨(div_le_iff₀ hm).mpr h2, (lt_div_iff₀ hm).mpr h3⟩
  · rintro ⟨h2, h3⟩
    exact ⟨(div_le_iff₀ hm).mp h2, (lt_div_iff₀ hm).mp h3⟩

/-- Inverse-transform characterization of the categorical draw: index `k`
is selected exactly when the uniform draw lies between the `k`-th and the
`(k+1)`-st cumulative sum of the probability list. -/
theorem selectIdx_eq_iff (ps : List ℚ) :
    ∀ u : ℚ, (∀ p ∈ ps, 0 ≤ p) → 0 ≤ u → ∀ k, k < ps.length →
      (selectIdx ps u = k ↔ (ps.take k).sum ≤ u ∧ u < (ps.take (k + 1)).sum) := by
  induction ps with
  | nil =>
    intro u _ _ k hk
    exact absurd hk (by simp)
  | cons p ps ih =>
    intro u hps hu k hk
    cases k with
    | zero =>
      have hsel : selectIdx (p :: ps) u = 0 ↔ u < p := by
        by_cases h : u < p <;> simp [selectIdx, h]
      rw [hsel]
      simp only [List.take_zero, List.sum_nil, List.take_succ_cons,
        List.sum_cons, add_zero]
      exact ⟨fun h => ⟨hu, by simpa using h⟩, fun h => by simpa using h.2⟩
    | succ k =>
      have hk2 : k < ps.length := by simpa using hk
      by_cases h : u < p
      · have hLHS : ¬selectIdx (p :: ps) u = k + 1 := by simp [selectIdx, h]
        simp only [hLHS, false_iff, List.take_succ_cons, List.sum_cons, not_and]
        intro h1
        have h0 : 0 ≤ (ps.take k).sum :=
          List.sum_nonneg fun x hx =>
            hps x (List.mem_cons_of_mem p (List.take_subset k ps hx))
        linarith
      · have hp : p ≤ u := not_lt.mp h
        have hLHS : selectIdx (p :: ps) u = k + 1 ↔ selectIdx ps (u - p) = k := by
          simp [selectIdx, h]
        rw [hLHS, ih (u - p) (fun x hx => hps x (List.mem_cons_of_mem p hx))
          (by linarith) k hk2]
        simp only [List.take_succ_cons, List.sum_cons]
        constructor
        · rintro ⟨h1, h2⟩
          exact ⟨by linarith, by linarith⟩
        · rintro ⟨h1, h2⟩
          exact ⟨by linarith, by linarith⟩

/-- A uniform draw below the total mass always selects a valid index. -/
theorem selectIdx_lt_length (ps : List ℚ) :
    ∀ u : ℚ, 0 ≤ u → u < ps.sum → selectIdx ps u < ps.length := by
  induction ps with
  | nil =>
    intro u hu0 hu1
    simp only [List.sum_nil] at hu1
    linarith
  | cons p ps ih =>
    intro u hu0 hu1
    by_cases h : u < p
    · simp [selectIdx, h]
    · have hp : p ≤ u := not_lt.mp h
      rw [List.sum_cons] at hu1
      have hrec := ih (u - p) (by linarith) (by linarith)
      simp only [selectIdx, if_neg h, List.length_cons]
      omega

theorem list_sum_div (l : List ℚ) (c : ℚ) :
    (l.map (fun x => x / c)).sum = l.sum / c := by
  induction l with
  | nil => simp
  | cons x xs ih => simp [ih, add_div]

theorem nbrs_nodup {n : ℕ} (adj : Fin n → Fin n → Bool) (i : Fin n) :
    (nbrs adj i).Nodup := (List.nodup_finRange n).filter _

theorem getD_map_of_lt {α β : Type*} (f : α → β) (l : List α) (d : β) (d2 : α)
    (k : ℕ) (hk : k < l.length) :
    (l.map f).getD k d = f (l.getD k d2) := by
  simp [List.getD_eq_getElem?_getD, List.getElem?_map,
    List.getElem?_eq_getElem hk]

/-- The population reached after `k` death-birth steps. -/
def stepIter {n : ℕ} [NeZero n] (pop : Population n) (expFn : ℚ → ℚ)
    (draws : ℕ → ℚ × ℚ × ℚ) : ℕ → Population n
  | 0 => pop
  | k + 1 => (stepIter pop expFn draws k).update_step expFn (draws k).1
      (draws k).2.1 (draws k).2.2

theorem stepIter_shift {n : ℕ} [NeZero n] (pop : Population n) (expFn : ℚ → ℚ)
    (draws : ℕ → ℚ × ℚ × ℚ) :
    ∀ k, stepIter pop expFn draws (k + 1) =
      stepIter (pop.update_step expFn (draws 0).1 (draws 0).2.1 (draws 0).2.2)
        expFn (fun i => draws (i + 1)) k := by
  intro k
  induction k with
  | zero => rfl
  | succ k ih =>
    show (stepIter pop expFn draws (k + 1)).update_step expFn (draws (k + 1)).1
        (draws (k + 1)).2.1 (draws (k + 1)).2.2 = _
    rw [ih]
    rfl

/-- The trajectory returned by `update_population` records exactly the mean
frequency after each of the `m` steps. -/
theorem update_population_spec {n : ℕ} [NeZero n] (expFn : ℚ → ℚ) (trait : ℤ) :
    ∀ (m : ℕ) (pop : Population n) (draws : ℕ → ℚ × ℚ × ℚ),
      (pop.update_population expFn draws trait m).1 = stepIter pop expFn draws m ∧
      ((pop.update_population expFn draws trait m).2).length = m ∧
      ∀ k, k < m → ((pop.update_population expFn draws trait m).2).getD k 0 =
        (stepIter pop expFn draws (k + 1)).mean_frequency trait := by
  intro m
  induction m with
  | zero => exact fun pop draws => ⟨rfl, rfl, fun k hk => absurd hk (by simp)⟩
  | succ m ih =>
    intro pop draws
    obtain ⟨h1, h2, h3⟩ := ih
      (pop.update_step expFn (draws 0).1 (draws 0).2.1 (draws 0).2.2)
      (fun i => draws (i + 1))
    refine ⟨?_, ?_, ?_⟩
    · show ((pop.update_step expFn (draws 0).1 (draws 0).2.1
          (draws 0).2.2).update_population expFn (fun i => draws (i + 1))
            trait m).1 = _
      rw [h1, ← stepIter_shift]
    · show ((pop.update_step expFn (draws 0).1 (draws 0).2.1
          (draws 0).2.2).mean_frequency trait ::
            ((pop.update_step expFn (draws 0).1 (draws 0).2.1
              (draws 0).2.2).update_population expFn (fun i => draws (i + 1))
                trait m).2).length = m + 1
      rw [List.length_cons, h2]
    · intro k hk
      cases k with
      | zero =>
        show ((pop.update_step expFn (draws 0).1 (draws 0).2.1
            (draws 0).2.2).mean_frequency trait ::
              ((pop.update_step expFn (draws 0).1 (draws 0).2.1
                (draws 0).2.2).update_population expFn (fun i => draws (i + 1))
                  trait m).2).getD 0 0 = _
        rw [stepIter_shift]
        rfl
      | succ k =>
        have hk2 : k < m := by omega
        show ((pop.update_step expFn (draws 0).1 (draws 0).2.1
            (draws 0).2.2).mean_frequency trait ::
              ((pop.update_step expFn (draws 0).1 (draws 0).2.1
                (draws 0).2.2).update_population expFn (fun i => draws (i + 1))
                  trait m).2).getD (k + 1) 0 = _
        rw [List.getD_cons_succ, h3 k hk2, stepIter_shift pop expFn draws (k + 1)]

/-- C5: the death-birth update step and trajectory.  With the per-step
uniform draws in `[0,1)` and `expFn` a positive model of `np.exp`, on a
graph with no isolated nodes and a mutation rate at most 1:
(1) the death node is uniform over all `N` nodes — node `i` is chosen
exactly when the death draw lies in `[i/N, (i+1)/N)`, an interval of
length `1/N`;
(2) writing `ns` for the neighbor list of the death node, `fit` for the
fitness list `expFn(δ·(payoff − max payoff))` over `ns` and `probs` for
its normalization, neighbor position `k` is selected exactly when the
birth draw lies between consecutive cumulative sums of `probs`, an
interval of length `fit[k]/Σfit` — probability proportional to the
fitness of the neighbor at position `k` — and the chosen birth node
belongs to `ns`;
(3) the step updates the state at the death node only, to
`1 − state[birth]` exactly when the mutation draw is below
`mutation_rate/2` — under a uniform draw on `[0,1)`, an event that is the
interval `[0, mutation_rate/2)` — and to `state[birth]` otherwise;
(4) `update_population trait m` performs `m` such steps and returns the
length-`m` sequence of mean frequencies of the trait after each step. -/
theorem C5_death_birth_update {n : ℕ} [NeZero n] (pop : Population n)
    (expFn : ℚ → ℚ) (hexp : ∀ x, 0 < expFn x)
    (hdeg : ∀ i : Fin n, nbrs pop.adj i ≠ [])
    (hμ1 : pop.mutation_rate ≤ 1)
    (u₀ u₁ u₂ : ℚ) (hu₀ : 0 ≤ u₀ ∧ u₀ < 1) (hu₁ : 0 ≤ u₁ ∧ u₁ < 1) :
    (∀ i : Fin n,
      ((i.val : ℚ) + 1) / n - (i.val : ℚ) / n = 1 / n ∧
      (randint n u₀ = i ↔ (i.val : ℚ) / n ≤ u₀ ∧ u₀ < ((i.val : ℚ) + 1) / n)) ∧
    (∀ ns pays fit probs,
      ns = nbrs pop.adj (randint n u₀) →
      pays = pop.payoff ns →
      fit = pays.map (fun p =>
        expFn (pop.selection_intensity * (p - listMax pays))) →
      probs = fit.map (fun f => f / fit.sum) →
      (∀ k, k < ns.length →
        (selectIdx probs u₁ = k ↔
          (probs.take k).sum ≤ u₁ ∧ u₁ < (probs.take (k + 1)).sum) ∧
        (probs.take (k + 1)).sum - (probs.take k).sum = fit.getD k 0 / fit.sum ∧
        fit.getD k 0 = expFn (pop.selection_intensity *
          (pop.payoff_of (ns.getD k (randint n u₀)) - listMax pays))) ∧
      ns.getD (selectIdx probs u₁) (randint n u₀) ∈ ns ∧
      ((pop.update_step expFn u₀ u₁ u₂).state =
        Function.update pop.state (randint n u₀)
          (if u₂ < pop.mutation_rate / 2
           then 1 - pop.state (ns.getD (selectIdx probs u₁) (randint n u₀))
           else pop.state (ns.getD (selectIdx probs u₁) (randint n u₀)))) ∧
      (∀ j, j ≠ randint n u₀ →
        (pop.update_step expFn u₀ u₁ u₂).state j = pop.state j)) ∧
    (∀ c : ℚ, (0 ≤ c ∧ c < 1 ∧ c < pop.mutation_rate / 2) ↔
      (0 ≤ c ∧ c < pop.mutation_rate / 2)) ∧
    (∀ (draws : ℕ → ℚ × ℚ × ℚ) (trait : ℤ) (m : ℕ),
      ((pop.update_population expFn draws trait m).2).length = m ∧
      ∀ k, k < m → ((pop.update_population expFn draws trait m).2).getD k 0 =
        (stepIter pop expFn draws (k + 1)).mean_frequency trait) := by
  refine ⟨?_, ?_, ?_, ?_⟩
  · intro i
    have hn : 0 < (n : ℚ) := by
      exact_mod_cast Nat.pos_of_ne_zero (NeZero.ne n)
    constructor
    · field_simp
    · exact randint_eq_iff u₀ hu₀.1 hu₀.2 i
  · intro ns pays fit probs hns hpays hfit hprobs
    subst hns hpays hfit hprobs
    set death := randint n u₀ with hdeath
    set ns := nbrs pop.adj death with hns2
    set pays := pop.payoff ns with hpays2
    set mx := listMax pays with hmx
    set fit := pays.map (fun p => expFn (pop.selection_intensity * (p - mx)))
      with hfit2
    set S := fit.sum with hS
    set probs := fit.map (fun f => f / S) with hprobs2
    have hnodup := nbrs_nodup pop.adj death
    have hmap : pays = ns.map pop.payoff_of := payoff_map pop ns hnodup
    have hlenpays : pays.length = ns.length := by
      rw [hmap, List.length_map]
    have hlenfit : fit.length = ns.length := by
      rw [hfit2, List.length_map, hlenpays]
    have hlenprobs : probs.length = ns.length := by
      rw [hprobs2, List.length_map, hlenfit]
    have hfitpos : ∀ x ∈ fit, 0 < x := by
      intro x hx
      rw [hfit2] at hx
      obtain ⟨p, _, rfl⟩ := List.mem_map.mp hx
      exact hexp _
    have hfitne : fit ≠ [] := by
      intro h
      have hl := congrArg List.length h
      rw [hlenfit] at hl
      exact hdeg death (List.length_eq_zero.mp hl)
    have hcount : 0 < S := List.sum_pos _ hfitpos hfitne
    have hnn : ∀ x ∈ probs, 0 ≤ x := by
      intro x hx
      rw [hprobs2] at hx
      obtain ⟨f, hf, rfl⟩ := List.mem_map.mp hx
      exact div_nonneg (le_of_lt (hfitpos f hf)) (le_of_lt hcount)
    refine ⟨?_, ?_, rfl, ?_⟩
    · intro k hk
      have hkfit : k < fit.length := by rw [hlenfit]; exact hk
      have hkprobs : k < probs.length := by rw [hlenprobs]; exact hk
      have hkpays : k < pays.length := by rw [hlenpays]; exact hk
      refine ⟨selectIdx_eq_iff probs u₁ hnn hu₁.1 k hkprobs, ?_, ?_⟩
      · have hstep := List.sum_take_succ probs k hkprobs
        have hidx : probs.getD k 0 = probs[k] := by
          simp [List.getD_eq_getElem?_getD, List.getElem?_eq_getElem hkprobs]
        have hgd : probs.getD k 0 = fit.getD k 0 / S := by
          rw [hprobs2]
          exact getD_map_of_lt (fun f => f / S) fit 0 0 k hkfit
        rw [← hidx, hgd] at hstep
        linarith
      · have hg1 : fit.getD k 0 =
            expFn (pop.selection_intensity * (pays.getD k 0 - mx)) := by
          rw [hfit2]
          exact getD_map_of_lt _ pays 0 0 k hkpays
        rw [hg1, hmap, getD_map_of_lt pop.payoff_of ns 0 death k hk]
    · have hsum1 : probs.sum = 1 := by
        rw [hprobs2, list_sum_div]
        exact div_self (ne_of_gt hcount)
      have hlt := selectIdx_lt_length probs u₁ hu₁.1 (by rw [hsum1]; exact hu₁.2)
      have hlt2 : selectIdx probs u₁ < ns.length := by
        rw [hlenprobs] at hlt
        exact hlt
      have hgd : ns.getD (selectIdx probs u₁) death =
          ns.get ⟨selectIdx probs u₁, hlt2⟩ := by
        simp [List.getD_eq_getElem?_getD, List.getElem?_eq_getElem hlt2]
      rw [hgd]
      exact List.get_mem ns (selectIdx probs u₁) hlt2
    · intro j hj
      have hstate : (pop.update_step expFn u₀ u₁ u₂).state =
          Function.update pop.state death
            (if u₂ < pop.mutation_rate / 2
             then 1 - pop.state (ns.getD (selectIdx probs u₁) death)
             else pop.state (ns.getD (selectIdx probs u₁) death)) := rfl
      rw [hstate]
      exact Function.update_noteq hj _ _
  · intro c
    constructor
    · rintro ⟨h1, _, h3⟩
      exact ⟨h1, h3⟩
    · rintro ⟨h1, h3⟩
      exact ⟨h1, by linarith, h3⟩
  · intro draws trait m
    exact ⟨(update_population_spec expFn trait m pop draws).2.1,
      (update_population_spec expFn trait m pop draws).2.2⟩

/-- A concrete valid two-node population (complete graph, additive good,
`b = 2`, `c = 1`, mutation rate `1/2`, selection intensity `1/10`). -/
def pop2 : Population 2 :=
  Population.mk (fun i j => decide (i ≠ j)) (fun _ => 1) "ff" 2 1 (1/2) (1/10)

/-- C5, witness: the update-step theorem applied to the concrete two-node
population with all uniform draws `0`, evaluated at node `0`. -/
theorem C5_witness :
    ((((0 : Fin 2).val : ℚ) + 1) / (2 : ℕ) - ((0 : Fin 2).val : ℚ) / (2 : ℕ) =
      1 / (2 : ℕ)) ∧
    (randint 2 0 = (0 : Fin 2) ↔
      ((0 : Fin 2).val : ℚ) / (2 : ℕ) ≤ 0 ∧
        (0 : ℚ) < (((0 : Fin 2).val : ℚ) + 1) / (2 : ℕ)) :=
  (C5_death_birth_update pop2 (fun _ => 1) (fun _ => one_pos) (by decide)
    (by norm_num [pop2]) 0 0 0 (by norm_num) (by norm_num)).1 0

end SigmaSpec
